import Mathlib

set_option maxHeartbeats 1000000

/-!
Verification development for the PTO tile-program analysis pipeline
(dependency-graph construction, transitive-reduction simplification and
bounded graph coloring, "SimplifyAndColor"), together with the test-suite
runner of `src/examples/test_utils.py`.

The analysis pipeline itself (`pto_compile`) ships no sources under `src/`;
only its callers and tests do (`src/examples/test_simplify_and_color.py`,
`src/examples/test_matmul_coloring.py`, `src/examples/run_llama_simplify_color.py`).
Definitions for the pipeline are therefore modelled from the spec, and each
such definition says so in its doc comment.  Definitions taken from code that
is present under `src/` cite the file they embed.
-/

namespace PTO

/-! ## Forward-subgraph reachability and the Simplifier

Forward dependency edges are directed pairs of instruction sequence ids.
The dependency-graph builder only ever directs a forward edge from an earlier
instruction to a later one, so the forward subgraph satisfies
`e.1 < e.2` for every edge `e`; theorems below take that as a hypothesis. -/

/-- Reachability via one or more directed edges drawn from the list `E`. -/
inductive Reach (E : List (Nat × Nat)) : Nat → Nat → Prop where
  | single {u v : Nat} : (u, v) ∈ E → Reach E u v
  | cons {u w v : Nat} : (u, w) ∈ E → Reach E w v → Reach E u v

/-- Largest destination id occurring in the edge list; bounds path search. -/
def maxNode (E : List (Nat × Nat)) : Nat := E.foldr (fun e m => max e.2 m) 0

/-- Fuel-bounded executable reachability test over the edge list `E`. -/
def reachb (E : List (Nat × Nat)) : Nat → Nat → Nat → Bool
  | 0, _, _ => false
  | fuel + 1, u, v => E.any (fun e => e.1 == u && (e.2 == v || reachb E fuel e.2 v))

/-- Modelled from the spec: the Simplifier of the missing `pto_compile` module.
A forward edge `(u, v)` is removable iff `v` is reachable from `u` by another
forward path of length at least two, i.e. through some first hop `w ≠ v`. -/
def removableb (E : List (Nat × Nat)) (u v : Nat) : Bool :=
  E.any (fun f => f.1 == u && !(f.2 == v) && reachb E (maxNode E + 1) f.2 v)

/-- Modelled from the spec: the transitive-reduction pass over the forward
subgraph.  Every removable forward edge is dropped; removals are justified
against the input edge set (a single pass over precomputed reachability). -/
def simplifyForward (E : List (Nat × Nat)) : List (Nat × Nat) :=
  E.filter (fun e => !(removableb E e.1 e.2))

/-! ## Data model

Programs are sequences of primitive tile and scalar operations over declared
resources, as built by `PTOFunctionBuilder` in the examples.  The builder
module itself is absent from `src/`, so the record layout follows the spec's
data model section. -/

/-- Scalar element types used by the example programs
(`pto_isa_definition.ElementType`). -/
inductive ElementType where
  | f32
  | f16
  | i32
deriving DecidableEq, Repr

/-- Modelled from the spec: a declared resource is a Tile (rows x cols block
of an element type, subject to coloring), a MemRef (off-chip memory endpoint,
never colored) or a Scalar (index/bound value, never colored). -/
inductive ResourceKind where
  | tile (rows cols : Nat) (dtype : ElementType)
  | memref (dtype : ElementType)
  | scalar (dtype : ElementType)
deriving DecidableEq, Repr

/-- Modelled from the spec: one primitive instruction with a program-order
sequence id, an opcode, ordered destination and source resource references,
and the ids of its enclosing loops.  Each destination optionally records the
shape/dtype the opcode produces for it (`none` when the opcode takes the
declared kind as-is); it is checked against the declaration during graph
construction. -/
structure Instruction where
  id : Nat
  opcode : String
  dsts : List (String × Option ResourceKind)
  srcs : List String
  loopIds : List Nat
deriving DecidableEq, Repr

/-- Modelled from the spec: a frozen Program is the declared resource table
plus the ordered instruction list. -/
structure Program where
  resources : List (String × ResourceKind)
  instructions : List Instruction
deriving DecidableEq, Repr

/-- Hazard kind labelling a forward dependency edge. -/
inductive Hazard where
  | raw
  | war
  | waw
deriving DecidableEq, Repr

/-- A forward dependency edge between two instruction ids. -/
structure Edge where
  src : Nat
  dst : Nat
  hazard : Hazard
deriving DecidableEq, Repr

/-- A loop-carried back edge: from the in-body writer to the in-body reader
that consumes the previous iteration's value of `res`, inside loop `loopId`. -/
structure BackEdge where
  src : Nat
  dst : Nat
  res : String
  loopId : Nat
deriving DecidableEq, Repr

/-- The dependency graph: forward (hazard) edges plus loop-carried back edges,
kept as two explicitly separated edge kinds. -/
structure DepGraph where
  forward : List Edge
  back : List BackEdge
deriving DecidableEq, Repr

/-- Kind of a malformed-program error raised during graph construction. -/
inductive ErrKind where
  | readBeforeWrite
  | undeclared
  | mismatch
deriving DecidableEq, Repr

/-- A malformed-program error, reported with the resource name and the
offending instruction id. -/
structure BuildError where
  resource : String
  instrId : Nat
  kind : ErrKind
deriving DecidableEq, Repr

/-- First-match association-list lookup on string keys. -/
def alookup {β : Type} (l : List (String × β)) (r : String) : Option β :=
  match l with
  | [] => none
  | (k, v) :: rest => if r = k then some v else alookup rest r

/-- Whether a resource kind is a Tile. -/
def isTileKind : ResourceKind → Bool
  | .tile _ _ _ => true
  | _ => false

/-- Whether `r` is declared as a Tile in the resource table. -/
def declaredTile (res : List (String × ResourceKind)) (r : String) : Bool :=
  match alookup res r with
  | some k => isTileKind k
  | none => false

/-- Whether instruction `i` writes resource `r` (any destination). -/
def writesTo (i : Instruction) (r : String) : Bool :=
  (i.dsts.map Prod.fst).any (fun d => d == r)

/-- Whether instruction `i` reads resource `r` (any source). -/
def readsFrom (i : Instruction) (r : String) : Bool :=
  i.srcs.any (fun s => s == r)

/-! ## Dependency graph builder

Modelled from the spec: a single forward pass over instructions in program
order, maintaining a last-writer map and a pending-readers map; loop-carried
back edges are detected separately per loop body. -/

/-- Running state of the forward scan. -/
structure ScanSt where
  lastWriter : List (String × Nat)
  pending : List (String × List Nat)
  edges : List Edge
deriving DecidableEq, Repr

/-- Record instruction `i` as a pending reader of `r`. -/
def addPending (pend : List (String × List Nat)) (r : String) (i : Nat) :
    List (String × List Nat) :=
  (r, ((alookup pend r).getD []) ++ [i]) :: pend

/-- Modelled from the spec: processing one source operand.  An undeclared
resource is a malformed-program error; a Tile read with no prior writer is a
read-before-write malformed-program error; otherwise a read-after-write edge
is added from the recorded last writer (when one exists) and the reader is
recorded as pending. -/
def readOne (res : List (String × ResourceKind)) (iid : Nat) (st : ScanSt)
    (r : String) : Except BuildError ScanSt :=
  match alookup res r with
  | none => .error ⟨r, iid, .undeclared⟩
  | some k =>
    match alookup st.lastWriter r with
    | some w =>
      .ok { st with edges := st.edges ++ [⟨w, iid, .raw⟩],
                    pending := addPending st.pending r iid }
    | none =>
      if isTileKind k then .error ⟨r, iid, .readBeforeWrite⟩
      else .ok { st with pending := addPending st.pending r iid }

/-- Process all source operands of one instruction, left to right. -/
def readsFold (res : List (String × ResourceKind)) (iid : Nat) :
    List String → ScanSt → Except BuildError ScanSt
  | [], st => .ok st
  | r :: rest, st =>
    match readOne res iid st r with
    | .error e => .error e
    | .ok st' => readsFold res iid rest st'

/-- Modelled from the spec: the state change of a validated write to `r` by
instruction `iid`: write-after-read edges from every pending reader other
than the writer itself, a write-after-write edge from the previous distinct
writer, then the last-writer map is updated and pending readers are cleared. -/
def writeApply (iid : Nat) (st : ScanSt) (r : String) : ScanSt :=
  let warEs := (((alookup st.pending r).getD []).filter (fun j => j != iid)).map
    (fun j => Edge.mk j iid .war)
  let wawEs :=
    match alookup st.lastWriter r with
    | some w => if w = iid then [] else [Edge.mk w iid .waw]
    | none => []
  { lastWriter := (r, iid) :: st.lastWriter
    pending := (r, []) :: st.pending
    edges := st.edges ++ warEs ++ wawEs }

/-- Modelled from the spec: processing one destination operand.  An
undeclared destination is a malformed-program error; a shape/dtype mismatch
between the produced kind and the declaration is a malformed-program error;
otherwise the write is applied. -/
def writeOne (res : List (String × ResourceKind)) (iid : Nat) (st : ScanSt)
    (d : String × Option ResourceKind) : Except BuildError ScanSt :=
  match alookup res d.1 with
  | none => .error ⟨d.1, iid, .undeclared⟩
  | some declared =>
    match d.2 with
    | some expected =>
      if expected = declared then .ok (writeApply iid st d.1)
      else .error ⟨d.1, iid, .mismatch⟩
    | none => .ok (writeApply iid st d.1)

/-- Process all destination operands of one instruction, left to right. -/
def writesFold (res : List (String × ResourceKind)) (iid : Nat) :
    List (String × Option ResourceKind) → ScanSt → Except BuildError ScanSt
  | [], st => .ok st
  | d :: rest, st =>
    match writeOne res iid st d with
    | .error e => .error e
    | .ok st' => writesFold res iid rest st'

/-- Process one instruction: sources first, then destinations, so that an
instruction reading and rewriting the same resource sees the previous writer. -/
def processInstr (res : List (String × ResourceKind)) (st : ScanSt)
    (i : Instruction) : Except BuildError ScanSt :=
  match readsFold res i.id i.srcs st with
  | .error e => .error e
  | .ok st' => writesFold res i.id i.dsts st'

/-- Scan the instruction list in program order. -/
def scanInstrs (res : List (String × ResourceKind)) :
    List Instruction → ScanSt → Except BuildError ScanSt
  | [], st => .ok st
  | i :: rest, st =>
    match processInstr res st i with
    | .error e => .error e
    | .ok st' => scanInstrs res rest st'

/-! ## Loop-carried back edges -/

/-- Largest element of a list of ids, if any. -/
def maxId? : List Nat → Option Nat
  | [] => none
  | x :: xs =>
    match maxId? xs with
    | none => some x
    | some m => some (max x m)

/-- Smallest element of a list of ids, if any. -/
def minId? : List Nat → Option Nat
  | [] => none
  | x :: xs =>
    match minId? xs with
    | none => some x
    | some m => some (min x m)

/-- All loop ids mentioned by the program's instructions. -/
def loopIdsOf (p : Program) : List Nat :=
  (p.instructions.flatMap (fun i => i.loopIds)).dedup

/-- The body of loop `L`: the instructions enclosed by it. -/
def bodyOf (p : Program) (L : Nat) : List Instruction :=
  p.instructions.filter (fun i => i.loopIds.any (fun l => l == L))

/-- Modelled from the spec: the accumulator pattern inside one loop body —
resource `r` is written in the body and also read in the body at or before
that write, so the read consumes the previous iteration's value. -/
def accPattern (body : List Instruction) (r : String) : Bool :=
  body.any (fun w => writesTo w r && body.any (fun rd => readsFrom rd r && rd.id ≤ w.id))

/-- Id of the last in-body writer of `r`, if any. -/
def lastWriterIdIn (body : List Instruction) (r : String) : Option Nat :=
  maxId? ((body.filter (fun i => writesTo i r)).map (fun i => i.id))

/-- Id of the first in-body reader of `r` at or before position `w`, if any. -/
def firstReaderAtMost (body : List Instruction) (r : String) (w : Nat) : Option Nat :=
  minId? ((body.filter (fun i => readsFrom i r && i.id ≤ w)).map (fun i => i.id))

/-- Modelled from the spec: the single back edge contributed by resource `r`
inside loop `L` — from the last in-body writer to the first in-body reader
that uses the previous iteration's value, when the accumulator pattern holds. -/
def backEdgeFor (body : List Instruction) (L : Nat) (r : String) : Option BackEdge :=
  match lastWriterIdIn body r with
  | none => none
  | some w =>
    match firstReaderAtMost body r w with
    | none => none
    | some rd => some ⟨w, rd, r, L⟩

/-- Back edges contributed by one loop body, one per qualifying resource. -/
def backEdgesOfBody (rs : List String) (body : List Instruction) (L : Nat) :
    List BackEdge :=
  rs.filterMap (backEdgeFor body L)

/-- Declared resource names of a program, in declaration order. -/
def resNames (p : Program) : List String := p.resources.map Prod.fst

/-- Modelled from the spec: all loop-carried back edges of the program —
each loop body is analysed as a unit, separately from the forward scan. -/
def backEdges (p : Program) : List BackEdge :=
  (loopIdsOf p).flatMap (fun L => backEdgesOfBody (resNames p) (bodyOf p L) L)

/-- Modelled from the spec: dependency-graph construction.  The forward scan
may fail with a malformed-program error; back edges never fail. -/
def buildGraph (p : Program) : Except BuildError DepGraph :=
  match scanInstrs p.resources p.instructions ⟨[], [], []⟩ with
  | .error e => .error e
  | .ok st => .ok ⟨st.edges, backEdges p⟩

/-- Whether graph construction succeeds. -/
def buildOk (p : Program) : Bool :=
  match buildGraph p with
  | .ok _ => true
  | .error _ => false

/-- The forward edge set of a program as id pairs (empty when construction
fails). -/
def forwardPairs (p : Program) : List (Nat × Nat) :=
  match buildGraph p with
  | .ok g => g.forward.map (fun e => (e.src, e.dst))
  | .error _ => []

/-- Simplify a forward edge list, keeping hazard labels.  Removals are
justified by reachability over the forward subgraph only. -/
def simplifyFwdEdges (E : List Edge) : List Edge :=
  E.filter (fun e => !(removableb (E.map (fun f => (f.src, f.dst))) e.src e.dst))

/-- Modelled from the spec: the Simplifier on a full dependency graph.  Back
edges are excluded from the removal candidate set and from the reachability
computation; they are returned untouched. -/
def simplifyGraph (g : DepGraph) : DepGraph :=
  ⟨simplifyFwdEdges g.forward, g.back⟩

/-! ## Colorer

Modelled from the spec: live ranges over Tile resources, an interference
relation from overlapping live ranges, and bounded greedy coloring in
largest-degree-first order with ties broken by ascending defining-instruction
id. -/

/-- Names of the declared Tile resources, in declaration order. -/
def tileNames (p : Program) : List String :=
  (p.resources.filter (fun x => isTileKind x.2)).map Prod.fst

/-- Id of the defining (first writing) instruction of `r`, if any. -/
def defIdOf (p : Program) (r : String) : Option Nat :=
  (p.instructions.find? (fun i => writesTo i r)).map (fun i => i.id)

/-- Id of the last instruction consuming or defining `r` (0 when unused). -/
def lastUseOf (p : Program) (r : String) : Nat :=
  (maxId? ((p.instructions.filter
    (fun i => readsFrom i r || writesTo i r)).map (fun i => i.id))).getD 0

/-- Span of the enclosing loop body when `r` participates in a loop-carried
back edge, if any. -/
def loopSpanOf (p : Program) (r : String) : Option (Nat × Nat) :=
  match (backEdges p).find? (fun e => e.res == r) with
  | none => none
  | some e =>
    let ids := (bodyOf p e.loopId).map (fun i => i.id)
    match minId? ids, maxId? ids with
    | some lo, some hi => some (lo, hi)
    | _, _ => none

/-- Modelled from the spec: the live range of a Tile resource — from its
defining instruction to its last consumer, extended across the entire
enclosing loop body when the resource is loop-carried. -/
def liveRange (p : Program) (r : String) : Option (Nat × Nat) :=
  match defIdOf p r with
  | none => none
  | some d =>
    let hi := lastUseOf p r
    match loopSpanOf p r with
    | none => some (d, hi)
    | some (lo2, hi2) => some (min d lo2, max hi hi2)

/-- Two closed id intervals intersect. -/
def rangesOverlap (a b : Nat × Nat) : Bool :=
  decide (a.1 ≤ b.2) && decide (b.1 ≤ a.2)

/-- Whether the live ranges of two resources overlap. -/
def overlapsLive (p : Program) (r₁ r₂ : String) : Bool :=
  match liveRange p r₁, liveRange p r₂ with
  | some a, some b => rangesOverlap a b
  | _, _ => false

/-- Interference: two distinct Tile resources whose live ranges overlap. -/
def interferes (p : Program) (r₁ r₂ : String) : Bool :=
  decide (r₁ ≠ r₂) && overlapsLive p r₁ r₂

/-- Node degree: number of interfering Tile neighbours. -/
def degreeOf (p : Program) (r : String) : Nat :=
  (tileNames p).countP (fun x => interferes p r x)

/-- Sort key for the coloring order: degree (descending) then defining
instruction id (ascending). -/
def tileKey (p : Program) (r : String) : Nat × Nat :=
  (degreeOf p r, (defIdOf p r).getD 0)

/-- Modelled from the spec: the coloring processing order — higher degree
first, ties broken by ascending defining-instruction id. -/
def colorOrder (p : Program) (a b : String) : Prop :=
  (tileKey p b).1 < (tileKey p a).1 ∨
    ((tileKey p a).1 = (tileKey p b).1 ∧ (tileKey p a).2 ≤ (tileKey p b).2)

instance colorOrderDec (p : Program) : DecidableRel (colorOrder p) := fun a b =>
  inferInstanceAs (Decidable ((tileKey p b).1 < (tileKey p a).1 ∨
    ((tileKey p a).1 = (tileKey p b).1 ∧ (tileKey p a).2 ≤ (tileKey p b).2)))

/-- Tile resources in coloring order. -/
def orderedTiles (p : Program) : List String :=
  List.insertionSort (colorOrder p) (tileNames p)

/-- Smallest color below the budget not present in `used`, if any. -/
def pickColor (tc : Nat) (used : List Nat) : Option Nat :=
  (List.range tc).find? (fun c => !(used.any (fun x => x == c)))

/-- Colors already assigned to neighbours of `n` among the processed nodes. -/
def usedColors (interf : String → String → Bool) (n : String)
    (acc : List (String × Option Nat)) : List Nat :=
  acc.filterMap (fun mc => if interf n mc.1 then mc.2 else none)

/-- Modelled from the spec: greedy coloring — for each node in order, assign
the smallest color not used by an already-colored neighbour, or leave it
unallocated (`none`) when no color below the budget is free. -/
def greedyGo (interf : String → String → Bool) (tc : Nat) :
    List String → List (String × Option Nat) → List (String × Option Nat)
  | [], acc => acc
  | n :: rest, acc =>
    greedyGo interf tc rest (acc ++ [(n, pickColor tc (usedColors interf n acc))])

/-- The color assignment of a program's Tile resources under budget `tc`. -/
def colorTiles (p : Program) (tc : Nat) : List (String × Option Nat) :=
  greedyGo (fun a b => interferes p a b) tc (orderedTiles p) []

/-- Overall coloring success: every Tile resource received a color. -/
def coloringSuccess (p : Program) (tc : Nat) : Bool :=
  (colorTiles p tc).all (fun x => x.2.isSome)

/-- Properness of a partial assignment: distinct interfering nodes that are
both colored carry different colors. -/
def ProperAsn (interf : String → String → Bool)
    (acc : List (String × Option Nat)) : Prop :=
  ∀ p₁ ∈ acc, ∀ p₂ ∈ acc, p₁.1 ≠ p₂.1 → interf p₁.1 p₂.1 = true →
    ∀ c₁ c₂, p₁.2 = some c₁ → p₂.2 = some c₂ → c₁ ≠ c₂

/-! ## Public interface and diagnostics

The per-instruction diagnostics mirror what the callers under `src/` read
after `SimplifyAndColor`: `instr.get_degree()`, `instr.color` (an integer in
which a negative value denotes "unallocated"), the distinct-color count
`len(set(instr.color for instr in program.instructions if instr.color >= 0))`
and the loop-carried count `sum(1 for instr in program.instructions if
instr.fanin_succ)` (src/examples/run_llama_simplify_color.py:86-87,
src/examples/test_matmul_coloring.py:404-408). -/

/-- The first Tile destination of an instruction, if any. -/
def tileDefinedBy (p : Program) (i : Instruction) : Option String :=
  (i.dsts.map Prod.fst).find? (fun d => declaredTile p.resources d)

/-- Embedded from `instr.get_degree()` as used by the src/ callers: the
interference degree of the Tile the instruction defines, 0 otherwise. -/
def instrDegree (p : Program) (i : Instruction) : Nat :=
  match tileDefinedBy p i with
  | some r => degreeOf p r
  | none => 0

/-- Embedded from `instr.color` as used by the src/ callers: an integer color
in which a negative value (-1) denotes "unallocated" or "not Tile-bearing". -/
def instrColor (p : Program) (tc : Nat) (i : Instruction) : Int :=
  match tileDefinedBy p i with
  | none => -1
  | some r =>
    match alookup (colorTiles p tc) r with
    | some (some c) => (c : Int)
    | _ => -1

/-- Whether the colorer left the instruction without an allocated color. -/
def instrUnallocated (p : Program) (tc : Nat) (i : Instruction) : Bool :=
  match tileDefinedBy p i with
  | none => true
  | some r =>
    match alookup (colorTiles p tc) r with
    | some (some _) => false
    | _ => true

/-- Embedded from src/examples/run_llama_simplify_color.py:87: the distinct
colors among instructions whose color attribute is nonnegative. -/
def distinctColorsList (p : Program) (tc : Nat) : List Int :=
  ((p.instructions.map (instrColor p tc)).filter (fun c => decide (0 ≤ c))).dedup

/-- Embedded from src/examples/run_llama_simplify_color.py:87:
`colors_used = len(set(instr.color for instr in program.instructions if
instr.color >= 0))`. -/
def colorsUsed (p : Program) (tc : Nat) : Nat :=
  (distinctColorsList p tc).length

/-- Embedded from `instr.fanin_succ` as used by the src/ callers: the
loop-carried predecessors of an instruction are the sources of back edges
pointing at it. -/
def loopCarriedPreds (p : Program) (i : Instruction) : List Nat :=
  ((backEdges p).filter (fun e => e.dst == i.id)).map (fun e => e.src)

/-- Post-call diagnostics accessible to the caller. -/
structure Diagnostics where
  degrees : List (Nat × Nat)
  colors : List (Nat × Int)
  colorsUsedCount : Nat
  loopCarriedCount : Nat
deriving DecidableEq, Repr

/-- Result of a successful analysis: the simplified edge sets, the Tile
assignment and the success flag. -/
structure ColorOut where
  forward : List Edge
  back : List BackEdge
  assignment : List (String × Option Nat)
  success : Bool
deriving DecidableEq, Repr

/-- Modelled from the spec: the full SimplifyAndColor pipeline — graph
construction (which may raise a malformed-program error), transitive
reduction, then bounded greedy coloring whose insufficient-budget outcome is
the boolean success flag, never an error. -/
def SimplifyAndColorCore (p : Program) (tc : Nat) : Except BuildError ColorOut :=
  match buildGraph p with
  | .error e => .error e
  | .ok g =>
    .ok ⟨(simplifyGraph g).forward, (simplifyGraph g).back,
         colorTiles p tc, coloringSuccess p tc⟩

/-- Keyword list of the exposed operation as the spec describes it. -/
def specSignatureKeywords : List String :=
  ["total_color", "output_path", "emit_diagnostics"]

/-- Embedded from src/examples/test_matmul_coloring.py:392-397: the keyword
arguments of the actual invocation
`program.SimplifyAndColor(TOTAL_COLOR=8, output_dir=..., visualize=True,
verbose=True)`. -/
def callSiteKeywords : List String :=
  ["TOTAL_COLOR", "output_dir", "visualize", "verbose"]

/-- Modelled from the spec and the src/ call sites: the exposed operation
with the invocation shape actually used by the callers.  The output
directory and the two output flags only control file and console output and
do not influence the analysis result. -/
def SimplifyAndColorApi (p : Program) (TOTAL_COLOR : Nat)
    (output_dir : Option String) (visualize verbose : Bool) :
    Except BuildError (Bool × Diagnostics) :=
  match SimplifyAndColorCore p TOTAL_COLOR with
  | .error e => .error e
  | .ok out =>
    .ok (out.success,
      ⟨p.instructions.map (fun i => (i.id, instrDegree p i)),
       p.instructions.map (fun i => (i.id, instrColor p TOTAL_COLOR i)),
       colorsUsed p TOTAL_COLOR,
       p.instructions.countP (fun i => !(loopCarriedPreds p i).isEmpty)⟩)

/-! ## Declarative malformedness -/

/-- A Tile source read by `i` with no writer among the earlier instructions
`pre`. -/
def readOffenseAt (res : List (String × ResourceKind)) (pre : List Instruction)
    (i : Instruction) : Bool :=
  i.srcs.any (fun r => declaredTile res r && !(pre.any (fun j => writesTo j r)))

/-- A destination of `i` whose produced shape/dtype mismatches its
declaration. -/
def mismatchAt (res : List (String × ResourceKind)) (i : Instruction) : Bool :=
  i.dsts.any (fun d =>
    match d.2, alookup res d.1 with
    | some expected, some declared => decide (expected ≠ declared)
    | _, _ => false)

/-- Executable malformedness check: some instruction reads a Tile with no
prior writer, or writes a destination whose kind mismatches its declaration. -/
def malformedGo (res : List (String × ResourceKind)) :
    List Instruction → List Instruction → Bool
  | _, [] => false
  | pre, i :: rest =>
    readOffenseAt res pre i || mismatchAt res i || malformedGo res (pre ++ [i]) rest

/-- Whether the program is malformed in the sense of the spec's
malformed-program taxonomy (restricted to the two claim conditions). -/
def malformedB (p : Program) : Bool :=
  malformedGo p.resources [] p.instructions

/-- A build error is genuine: the program splits at the reported instruction
and the reported resource offends there in the reported way. -/
def offenseMatch (res : List (String × ResourceKind)) (pre : List Instruction)
    (i : Instruction) (e : BuildError) : Prop :=
  match e.kind with
  | .readBeforeWrite =>
    e.resource ∈ i.srcs ∧ declaredTile res e.resource = true ∧
      pre.any (fun j => writesTo j e.resource) = false
  | .undeclared =>
    alookup res e.resource = none ∧
      (e.resource ∈ i.srcs ∨ e.resource ∈ i.dsts.map Prod.fst)
  | .mismatch =>
    ∃ d ∈ i.dsts, d.1 = e.resource ∧
      ∃ ex dk, d.2 = some ex ∧ alookup res d.1 = some dk ∧ ex ≠ dk

/-- The reported error is witnessed at its instruction inside the program. -/
def ErrorWitnessed (p : Program) (e : BuildError) : Prop :=
  ∃ pre i post, p.instructions = pre ++ i :: post ∧ i.id = e.instrId ∧
    offenseMatch p.resources pre i e

/-- The last-writer map of the scan state records exactly the resources
written by the already-processed prefix. -/
def WriterConsistent (pre : List Instruction) (st : ScanSt) : Prop :=
  ∀ r, (alookup st.lastWriter r).isSome = true ↔ ∃ j ∈ pre, writesTo j r = true

/-! ## Test-suite runner (src/examples/test_utils.py) -/

/-- Embedded from src/examples/test_utils.py:54-61 (`TestResult`): name, pass
flag and error message.  The float error metrics carried alongside do not
influence the suite's control flow and are omitted. -/
structure TestResult where
  name : String
  passed : Bool
  errorMessage : String
deriving DecidableEq, Repr

/-- Embedded from src/examples/test_utils.py:626-631: the summary dictionary
returned by `run_test_suite`. -/
structure SuiteSummary where
  results : List TestResult
  passed : Nat
  failed : Nat
  total : Nat
deriving DecidableEq, Repr

/-- Embedded from src/examples/test_utils.py:600-619: one iteration of the
suite loop.  A test call either returns a `TestResult` or raises (modelled as
`Except.error` carrying the exception message); a raise is recorded as a
failed result with that message and the loop continues. -/
def runSuiteStep (acc : List TestResult × Nat × Nat)
    (t : String × Except String TestResult) : List TestResult × Nat × Nat :=
  match t.2 with
  | .ok result =>
    if result.passed then (acc.1 ++ [result], acc.2.1 + 1, acc.2.2)
    else (acc.1 ++ [result], acc.2.1, acc.2.2 + 1)
  | .error e => (acc.1 ++ [TestResult.mk t.1 false e], acc.2.1, acc.2.2 + 1)

/-- Embedded from src/examples/test_utils.py:585-631 (`run_test_suite`). -/
def runTestSuite (tests : List (String × Except String TestResult)) :
    SuiteSummary :=
  let out := tests.foldl runSuiteStep ([], 0, 0)
  ⟨out.1, out.2.1, out.2.2, tests.length⟩

/-- The result `run_test_suite` records for one (name, test) entry. -/
def recordOf (t : String × Except String TestResult) : TestResult :=
  match t.2 with
  | .ok r => r
  | .error e => ⟨t.1, false, e⟩

/-- Whether a suite entry counts as passed. -/
def passFlag (t : String × Except String TestResult) : Bool :=
  match t.2 with
  | .ok r => r.passed
  | .error _ => false

/-! ## Concrete programs from the examples -/

/-- Embedded from src/examples/test_simplify_and_color.py:25-57
(`create_test_program`), restricted to the five instructions named by
Scenario A: `load a; load b; add c=a+b; mul d=a+b; add e=c+d`. -/
def scenarioA : Program :=
  { resources :=
      [("a", .tile 8 8 .f32), ("b", .tile 8 8 .f32), ("c", .tile 8 8 .f32),
       ("d", .tile 8 8 .f32), ("e", .tile 8 8 .f32),
       ("input_a", .memref .f32), ("input_b", .memref .f32)]
    instructions :=
      [⟨0, "load", [("a", none)], ["input_a"], []⟩,
       ⟨1, "load", [("b", none)], ["input_b"], []⟩,
       ⟨2, "add", [("c", none)], ["a", "b"], []⟩,
       ⟨3, "mul", [("d", none)], ["a", "b"], []⟩,
       ⟨4, "add", [("e", none)], ["c", "d"], []⟩] }

/-- Embedded from src/examples/test_simplify_and_color.py:60-80
(`create_loop_program`): accumulator loop, the loop body carrying loop id 1. -/
def loopProg : Program :=
  { resources :=
      [("x", .tile 8 8 .f32), ("y", .tile 8 8 .f32), ("acc", .tile 8 8 .f32),
       ("input", .memref .f32), ("output", .memref .f32), ("i", .scalar .i32)]
    instructions :=
      [⟨0, "load", [("acc", none)], ["input"], []⟩,
       ⟨1, "for_loop", [("i", none)], [], []⟩,
       ⟨2, "load", [("x", none)], ["input", "i"], [1]⟩,
       ⟨3, "mul", [("y", none)], ["x", "acc"], [1]⟩,
       ⟨4, "add", [("acc", none)], ["acc", "y"], [1]⟩,
       ⟨5, "end_for", [], [], []⟩,
       ⟨6, "store", [("output", none)], ["acc"], []⟩] }

/-- The body of the accumulator loop of `loopProg`. -/
def loopBody : List Instruction := bodyOf loopProg 1

/-- Three mutually live Tile resources plus a sum tile (the Scenario C
shape): with budget 2 the coloring must fail, with budget 8 it succeeds. -/
def overlapProg : Program :=
  { resources :=
      [("t1", .tile 8 8 .f32), ("t2", .tile 8 8 .f32), ("t3", .tile 8 8 .f32),
       ("s", .tile 8 8 .f32), ("m", .memref .f32)]
    instructions :=
      [⟨0, "load", [("t1", none)], ["m"], []⟩,
       ⟨1, "load", [("t2", none)], ["m"], []⟩,
       ⟨2, "load", [("t3", none)], ["m"], []⟩,
       ⟨3, "add", [("s", none)], ["t1", "t2"], []⟩,
       ⟨4, "add", [("s", none)], ["s", "t3"], []⟩,
       ⟨5, "store", [("m", none)], ["s"], []⟩] }

/-- A malformed program: instruction 0 reads Tile `a`, which has no prior
writer. -/
def badProg : Program :=
  { resources := [("a", .tile 8 8 .f32), ("c", .tile 8 8 .f32)]
    instructions := [⟨0, "neg", [("c", none)], ["a"], []⟩] }

/-- Suite input exercising both branches of the runner: one passing test and
one raising test. -/
def demoTests : List (String × Except String TestResult) :=
  [("ok_test", .ok ⟨"ok_test", true, ""⟩),
   ("boom", .error "kaboom")]

/-! ## Theorems: reachability preservation and minimality (C1 support) -/

theorem Reach.trans {E : List (Nat × Nat)} {u v w : Nat} :
    Reach E u v → Reach E v w → Reach E u w := by
  intro h1
  induction h1 with
  | single h => intro h2; exact .cons h h2
  | cons h _ ih => intro h2; exact .cons h (ih h2)

theorem Reach.of_subset {E F : List (Nat × Nat)} (hsub : ∀ x ∈ E, x ∈ F) {u v : Nat} :
    Reach E u v → Reach F u v := by
  intro h
  induction h with
  | single h => exact .single (hsub _ h)
  | cons h _ ih => exact .cons (hsub _ h) ih

theorem Reach.lt {E : List (Nat × Nat)} (hmono : ∀ e ∈ E, e.1 < e.2) {u v : Nat}
    (h : Reach E u v) : u < v := by
  induction h with
  | single h => exact hmono _ h
  | cons h _ ih => exact lt_trans (hmono _ h) ih

theorem le_maxNode {E : List (Nat × Nat)} {e : Nat × Nat} (h : e ∈ E) :
    e.2 ≤ maxNode E := by
  induction E with
  | nil => cases h
  | cons f rest ih =>
    have hm : maxNode (f :: rest) = max f.2 (maxNode rest) := rfl
    rcases List.mem_cons.mp h with h | h
    · subst h; rw [hm]; exact le_max_left _ _
    · rw [hm]; exact le_trans (ih h) (le_max_right _ _)

theorem Reach.dst_le_maxNode {E : List (Nat × Nat)} {u v : Nat} (h : Reach E u v) :
    v ≤ maxNode E := by
  induction h with
  | single h => exact le_maxNode h
  | cons _ _ ih => exact ih

theorem reachb_sound {E : List (Nat × Nat)} :
    ∀ {fuel u v : Nat}, reachb E fuel u v = true → Reach E u v := by
  intro fuel
  induction fuel with
  | zero => intro u v h; simp [reachb] at h
  | succ f ih =>
    intro u v h
    simp only [reachb, List.any_eq_true, Bool.and_eq_true, Bool.or_eq_true,
      beq_iff_eq] at h
    obtain ⟨e, he, h1, h2⟩ := h
    have hep : e = (e.1, e.2) := rfl
    rcases h2 with h2 | h2
    · subst h1; subst h2
      exact .single (by rw [hep] at he; exact he)
    · subst h1
      exact .cons (by rw [hep] at he; exact he) (ih h2)

theorem reachb_complete {E : List (Nat × Nat)} (hmono : ∀ e ∈ E, e.1 < e.2)
    {u v : Nat} (h : Reach E u v) :
    ∀ fuel, v - u ≤ fuel → reachb E fuel u v = true := by
  induction h with
  | @single u v hmem =>
    intro fuel hle
    have huv : u < v := hmono _ hmem
    cases fuel with
    | zero => omega
    | succ f =>
      simp only [reachb, List.any_eq_true, Bool.and_eq_true, Bool.or_eq_true,
        beq_iff_eq]
      exact ⟨(u, v), hmem, rfl, Or.inl rfl⟩
  | @cons u w v hmem htail ih =>
    intro fuel hle
    have huw : u < w := hmono _ hmem
    have hwv : w < v := Reach.lt hmono htail
    cases fuel with
    | zero => omega
    | succ f =>
      simp only [reachb, List.any_eq_true, Bool.and_eq_true, Bool.or_eq_true,
        beq_iff_eq]
      exact ⟨(u, w), hmem, rfl, Or.inr (ih f (by omega))⟩

theorem removableb_iff {E : List (Nat × Nat)} (hmono : ∀ e ∈ E, e.1 < e.2)
    {u v : Nat} :
    removableb E u v = true ↔ ∃ w, (u, w) ∈ E ∧ w ≠ v ∧ Reach E w v := by
  constructor
  · intro h
    simp only [removableb, List.any_eq_true, Bool.and_eq_true, Bool.not_eq_true',
      beq_iff_eq, beq_eq_false_iff_ne, ne_eq] at h
    obtain ⟨f, hf, ⟨h1, h2⟩, h3⟩ := h
    refine ⟨f.2, ?_, h2, reachb_sound h3⟩
    have : f = (f.1, f.2) := rfl
    rw [this] at hf; rw [h1] at hf; exact hf
  · rintro ⟨w, hmem, hne, hr⟩
    simp only [removableb, List.any_eq_true, Bool.and_eq_true, Bool.not_eq_true',
      beq_iff_eq, beq_eq_false_iff_ne, ne_eq]
    refine ⟨(u, w), hmem, ⟨rfl, hne⟩, ?_⟩
    exact reachb_complete hmono hr _ (by have := hr.dst_le_maxNode; omega)

theorem mem_simplifyForward {E : List (Nat × Nat)} {e : Nat × Nat} :
    e ∈ simplifyForward E ↔ e ∈ E ∧ removableb E e.1 e.2 = false := by
  simp [simplifyForward, List.mem_filter]

theorem simplifyForward_subset {E : List (Nat × Nat)} :
    ∀ x ∈ simplifyForward E, x ∈ E := fun _ hx => (mem_simplifyForward.mp hx).1

/-- Transfer a reachability path of `E` into the simplified graph, given that
every single `E`-edge strictly inside the window `(u, v]` already transfers. -/
theorem reach_transfer (E : List (Nat × Nat)) (hmono : ∀ e ∈ E, e.1 < e.2)
    (u v : Nat)
    (hIH : ∀ a b, (a, b) ∈ E → u < a → b ≤ v → Reach (simplifyForward E) a b) :
    ∀ w v', Reach E w v' → u < w → v' ≤ v → Reach (simplifyForward E) w v' := by
  intro w v' hr
  induction hr with
  | @single w₁ v₁ h =>
    intro huw hv'
    exact hIH _ _ h huw hv'
  | @cons w₁ x v₁ h htail ihr =>
    intro huw hv'
    have hwx : w₁ < x := hmono _ h
    have hxv : x < v₁ := Reach.lt hmono htail
    have h1 : Reach (simplifyForward E) w₁ x := hIH _ _ h huw (by omega)
    have h2 : Reach (simplifyForward E) x v₁ := ihr (by omega) hv'
    exact h1.trans h2

/-- Every edge of `E` connects its endpoints in the simplified graph:
either the edge is kept, or a longer forward path witnesses removability and
its (shorter-span) edges are kept recursively. -/
theorem edge_reach_simplify (E : List (Nat × Nat)) (hmono : ∀ e ∈ E, e.1 < e.2) :
    ∀ (n u v : Nat), v - u ≤ n → (u, v) ∈ E → Reach (simplifyForward E) u v := by
  intro n
  induction n using Nat.strong_induction_on with
  | _ n ih =>
    intro u v hle hmem
    cases hrm : removableb E u v with
    | false => exact .single (mem_simplifyForward.mpr ⟨hmem, hrm⟩)
    | true =>
      obtain ⟨w, hw, hwne, hwr⟩ := (removableb_iff hmono).mp hrm
      have huw : u < w := hmono _ hw
      have hwv : w < v := Reach.lt hmono hwr
      have huv : u < v := hmono _ hmem
      have h1 : Reach (simplifyForward E) u w :=
        ih (w - u) (by omega) u w (le_refl _) hw
      have h2 : Reach (simplifyForward E) w v := by
        refine reach_transfer E hmono u v ?_ w v hwr huw (le_refl v)
        intro a b hab hua hbv
        have hablt : a < b := hmono _ hab
        exact ih (b - a) (by omega) a b (le_refl _) hab
      exact h1.trans h2

/-- Reachability of the input forward graph carries over to the simplified one. -/
theorem reach_simplify_of_reach {E : List (Nat × Nat)} (hmono : ∀ e ∈ E, e.1 < e.2)
    {u v : Nat} (h : Reach E u v) : Reach (simplifyForward E) u v := by
  induction h with
  | @single u v hmem => exact edge_reach_simplify E hmono (v - u) u v (le_refl _) hmem
  | @cons u w v hmem _ ih =>
    exact (edge_reach_simplify E hmono (w - u) u w (le_refl _) hmem).trans ih

/-- Every kept edge is essential: dropping it from the simplified edge set
disconnects its endpoints. -/
theorem simplify_minimal {E : List (Nat × Nat)} (hmono : ∀ e ∈ E, e.1 < e.2)
    {u v : Nat} (hmem : (u, v) ∈ simplifyForward E) :
    ¬ Reach ((simplifyForward E).filter (fun f => f ≠ (u, v))) u v := by
  intro hr
  have hsub : ∀ x ∈ (simplifyForward E).filter (fun f => f ≠ (u, v)), x ∈ E := by
    intro x hx
    exact simplifyForward_subset _ (List.mem_filter.mp hx).1
  have hmono' : ∀ e ∈ (simplifyForward E).filter (fun f => f ≠ (u, v)), e.1 < e.2 :=
    fun e he => hmono _ (hsub _ he)
  have hrm : removableb E u v = false := (mem_simplifyForward.mp hmem).2
  cases hr with
  | single h =>
    have := (List.mem_filter.mp h).2
    simp at this
  | @cons _ w _ h htail =>
    have hwE : (u, w) ∈ E := hsub _ h
    have hwv : w < v := Reach.lt hmono' htail
    have hrE : Reach E w v := htail.of_subset hsub
    have : removableb E u v = true :=
      (removableb_iff hmono).mpr ⟨w, hwE, by omega, hrE⟩
    rw [hrm] at this
    exact Bool.false_ne_true this

/-! ## Builder invariants: forward edges always point forward -/

theorem alookup_mem {β : Type} {l : List (String × β)} {r : String} {v : β}
    (h : alookup l r = some v) : (r, v) ∈ l := by
  induction l with
  | nil => simp [alookup] at h
  | cons kv rest ih =>
    obtain ⟨k, v'⟩ := kv
    by_cases hrk : r = k
    · subst hrk
      simp [alookup] at h
      subst h
      exact List.mem_cons_self _ _
    · simp [alookup, hrk] at h
      exact List.mem_cons_of_mem _ (ih h)

theorem pending_bound {st : ScanSt} {iid : Nat} {r : String} {j : Nat}
    (hpd : ∀ q ∈ st.pending, ∀ j ∈ q.2, j ≤ iid)
    (hj : j ∈ (alookup st.pending r).getD []) : j ≤ iid := by
  cases hp : alookup st.pending r with
  | none => rw [hp] at hj; simp at hj
  | some l =>
    rw [hp] at hj
    exact hpd (r, l) (alookup_mem hp) j hj

theorem addPending_bound {st : ScanSt} {iid : Nat} {r : String}
    (hpd : ∀ q ∈ st.pending, ∀ j ∈ q.2, j ≤ iid) :
    ∀ q ∈ addPending st.pending r iid, ∀ j ∈ q.2, j ≤ iid := by
  intro q hq j hj
  rcases List.mem_cons.mp hq with hq | hq
  · subst hq
    simp only at hj
    rcases List.mem_append.mp hj with hj | hj
    · exact pending_bound hpd hj
    · simp at hj; omega
  · exact hpd q hq j hj

theorem readOne_ok {res : List (String × ResourceKind)} {iid : Nat} {st : ScanSt}
    {r : String} {st' : ScanSt} (h : readOne res iid st r = .ok st') :
    st'.lastWriter = st.lastWriter ∧
    st'.pending = addPending st.pending r iid ∧
    (st'.edges = st.edges ∨
      ∃ w, alookup st.lastWriter r = some w ∧
        st'.edges = st.edges ++ [⟨w, iid, .raw⟩]) := by
  cases hres : alookup res r with
  | none =>
    simp only [readOne, hres] at h
    exact Except.noConfusion h
  | some k =>
    cases hlw : alookup st.lastWriter r with
    | some w =>
      simp only [readOne, hres, hlw] at h
      injection h with h
      subst h
      exact ⟨rfl, rfl, Or.inr ⟨w, rfl, rfl⟩⟩
    | none =>
      by_cases ht : isTileKind k = true
      · simp only [readOne, hres, hlw, ht, if_true] at h
        exact Except.noConfusion h
      · simp only [readOne, hres, hlw, ht, if_false, Bool.false_eq_true] at h
        injection h with h
        subst h
        exact ⟨rfl, rfl, Or.inl rfl⟩

theorem readsFold_ok_inv (res : List (String × ResourceKind)) (iid : Nat) :
    ∀ (srcs : List String) (st st' : ScanSt),
      readsFold res iid srcs st = .ok st' →
      (∀ q ∈ st.lastWriter, q.2 < iid) →
      (∀ q ∈ st.pending, ∀ j ∈ q.2, j ≤ iid) →
      (∀ e ∈ st.edges, e.src < e.dst) →
      st'.lastWriter = st.lastWriter ∧
      (∀ q ∈ st'.pending, ∀ j ∈ q.2, j ≤ iid) ∧
      (∀ e ∈ st'.edges, e.src < e.dst) := by
  intro srcs
  induction srcs with
  | nil =>
    intro st st' h hlw hpd hed
    cases h
    exact ⟨rfl, hpd, hed⟩
  | cons r rest ih =>
    intro st st' h hlw hpd hed
    unfold readsFold at h
    cases h1 : readOne res iid st r with
    | error e => rw [h1] at h; cases h
    | ok st₁ =>
      rw [h1] at h
      obtain ⟨hl1, hp1, he1⟩ := readOne_ok h1
      have hlw1 : ∀ q ∈ st₁.lastWriter, q.2 < iid := by rw [hl1]; exact hlw
      have hpd1 : ∀ q ∈ st₁.pending, ∀ j ∈ q.2, j ≤ iid := by
        rw [hp1]; exact addPending_bound hpd
      have hed1 : ∀ e ∈ st₁.edges, e.src < e.dst := by
        rcases he1 with he1 | ⟨w, hw, he1⟩
        · rw [he1]; exact hed
        · rw [he1]
          intro e he
          rcases List.mem_append.mp he with he | he
          · exact hed e he
          · simp at he
            subst he
            have := hlw (r, w) (alookup_mem hw)
            simpa using this
      obtain ⟨ha, hb, hc⟩ := ih st₁ st' h hlw1 hpd1 hed1
      exact ⟨ha.trans hl1, hb, hc⟩

theorem writeOne_ok {res : List (String × ResourceKind)} {iid : Nat} {st : ScanSt}
    {d : String × Option ResourceKind} {st' : ScanSt}
    (h : writeOne res iid st d = .ok st') : st' = writeApply iid st d.1 := by
  cases hres : alookup res d.1 with
  | none =>
    simp only [writeOne, hres] at h
    exact Except.noConfusion h
  | some declared =>
    cases hd : d.2 with
    | none =>
      simp only [writeOne, hres, hd] at h
      injection h with h
      exact h.symm
    | some expected =>
      by_cases he : expected = declared
      · simp only [writeOne, hres, hd, he, if_true] at h
        injection h with h
        exact h.symm
      · simp only [writeOne, hres, hd, he, if_false] at h
        exact Except.noConfusion h

theorem writeApply_inv {iid : Nat} {st : ScanSt} {r : String}
    (hlw : ∀ q ∈ st.lastWriter, q.2 ≤ iid)
    (hpd : ∀ q ∈ st.pending, ∀ j ∈ q.2, j ≤ iid)
    (hed : ∀ e ∈ st.edges, e.src < e.dst) :
    (∀ q ∈ (writeApply iid st r).lastWriter, q.2 ≤ iid) ∧
    (∀ q ∈ (writeApply iid st r).pending, ∀ j ∈ q.2, j ≤ iid) ∧
    (∀ e ∈ (writeApply iid st r).edges, e.src < e.dst) := by
  refine ⟨?_, ?_, ?_⟩
  · intro q hq
    rcases List.mem_cons.mp hq with hq | hq
    · subst hq; exact le_refl _
    · exact hlw q hq
  · intro q hq j hj
    rcases List.mem_cons.mp hq with hq | hq
    · subst hq; simp at hj
    · exact hpd q hq j hj
  · intro e he
    simp only [writeApply, List.append_assoc, List.mem_append] at he
    rcases he with he | he | he
    · exact hed e he
    · simp only [List.mem_map, List.mem_filter] at he
      obtain ⟨j, ⟨hj, hjne⟩, rfl⟩ := he
      have h1 : j ≤ iid := pending_bound hpd hj
      have h2 : j ≠ iid := by simpa using hjne
      simpa using lt_of_le_of_ne h1 h2
    · revert he
      cases hw : alookup st.lastWriter r with
      | none => intro he; simp at he
      | some w =>
        by_cases hwi : w = iid
        · simp [hwi]
        · intro he
          simp [hwi] at he
          subst he
          have h1 : w ≤ iid := hlw (r, w) (alookup_mem hw)
          simpa using lt_of_le_of_ne h1 hwi

theorem writesFold_ok_inv (res : List (String × ResourceKind)) (iid : Nat) :
    ∀ (dsts : List (String × Option ResourceKind)) (st st' : ScanSt),
      writesFold res iid dsts st = .ok st' →
      (∀ q ∈ st.lastWriter, q.2 ≤ iid) →
      (∀ q ∈ st.pending, ∀ j ∈ q.2, j ≤ iid) →
      (∀ e ∈ st.edges, e.src < e.dst) →
      (∀ q ∈ st'.lastWriter, q.2 ≤ iid) ∧
      (∀ q ∈ st'.pending, ∀ j ∈ q.2, j ≤ iid) ∧
      (∀ e ∈ st'.edges, e.src < e.dst) := by
  intro dsts
  induction dsts with
  | nil =>
    intro st st' h hlw hpd hed
    cases h
    exact ⟨hlw, hpd, hed⟩
  | cons d rest ih =>
    intro st st' h hlw hpd hed
    unfold writesFold at h
    cases h1 : writeOne res iid st d with
    | error e => rw [h1] at h; cases h
    | ok st₁ =>
      rw [h1] at h
      have hst₁ : st₁ = writeApply iid st d.1 := writeOne_ok h1
      subst hst₁
      obtain ⟨ha, hb, hc⟩ := writeApply_inv hlw hpd hed
      exact ih _ st' h ha hb hc

theorem processInstr_inv {res : List (String × ResourceKind)} {st : ScanSt}
    {i : Instruction} {st' : ScanSt} (h : processInstr res st i = .ok st')
    (hlw : ∀ q ∈ st.lastWriter, q.2 < i.id)
    (hpd : ∀ q ∈ st.pending, ∀ j ∈ q.2, j ≤ i.id)
    (hed : ∀ e ∈ st.edges, e.src < e.dst) :
    (∀ q ∈ st'.lastWriter, q.2 ≤ i.id) ∧
    (∀ q ∈ st'.pending, ∀ j ∈ q.2, j ≤ i.id) ∧
    (∀ e ∈ st'.edges, e.src < e.dst) := by
  unfold processInstr at h
  cases h1 : readsFold res i.id i.srcs st with
  | error e => rw [h1] at h; cases h
  | ok st₁ =>
    rw [h1] at h
    obtain ⟨hl1, hp1, he1⟩ := readsFold_ok_inv res i.id i.srcs st st₁ h1 hlw hpd hed
    have hlw1 : ∀ q ∈ st₁.lastWriter, q.2 ≤ i.id := by
      rw [hl1]; intro q hq; exact le_of_lt (hlw q hq)
    exact writesFold_ok_inv res i.id i.dsts st₁ st' h hlw1 hp1 he1

theorem scan_mono (res : List (String × ResourceKind)) :
    ∀ (instrs : List Instruction) (st st' : ScanSt),
      scanInstrs res instrs st = .ok st' →
      List.Pairwise (fun a b => a.id < b.id) instrs →
      (∀ q ∈ st.lastWriter, ∀ i ∈ instrs, q.2 < i.id) →
      (∀ q ∈ st.pending, ∀ j ∈ q.2, ∀ i ∈ instrs, j ≤ i.id) →
      (∀ e ∈ st.edges, e.src < e.dst) →
      ∀ e ∈ st'.edges, e.src < e.dst := by
  intro instrs
  induction instrs with
  | nil =>
    intro st st' h _ _ _ hed
    cases h
    exact hed
  | cons i rest ih =>
    intro st st' h hpw hlw hpd hed
    unfold scanInstrs at h
    cases h1 : processInstr res st i with
    | error e => rw [h1] at h; cases h
    | ok st₁ =>
      rw [h1] at h
      obtain ⟨hhead, hrest⟩ := List.pairwise_cons.mp hpw
      obtain ⟨ha, hb, hc⟩ := processInstr_inv h1
        (fun q hq => hlw q hq i (List.mem_cons_self _ _))
        (fun q hq j hj => hpd q hq j hj i (List.mem_cons_self _ _))
        hed
      exact ih st₁ st' h hrest
        (fun q hq i' hi' => lt_of_le_of_lt (ha q hq) (hhead i' hi'))
        (fun q hq j hj i' hi' => le_of_lt (lt_of_le_of_lt (hb q hq j hj) (hhead i' hi')))
        hc

/-- Under the data-model invariant that sequence ids strictly increase in
program order, every forward edge of the built graph points forward. -/
theorem forwardPairs_mono (p : Program)
    (hinc : List.Pairwise (fun a b => a.id < b.id) p.instructions) :
    ∀ e ∈ forwardPairs p, e.1 < e.2 := by
  intro e he
  unfold forwardPairs at he
  cases hg : buildGraph p with
  | error err => rw [hg] at he; cases he
  | ok g =>
    rw [hg] at he
    simp only [List.mem_map] at he
    obtain ⟨ed, hed, rfl⟩ := he
    unfold buildGraph at hg
    cases hs : scanInstrs p.resources p.instructions ⟨[], [], []⟩ with
    | error err => rw [hs] at hg; cases hg
    | ok st =>
      rw [hs] at hg
      cases hg
      exact scan_mono p.resources p.instructions _ st hs hinc
        (by intro q hq; cases hq) (by intro q hq; cases hq)
        (by intro e' he'; cases he') ed hed

/-- C1: For every Program (with program-order sequence ids strictly
increasing), simplification preserves forward reachability — any two
instructions are connected through forward edges after simplification exactly
when they were before — and the resulting forward edge set is edge-minimal
for that reachability closure: removing any kept edge disconnects its
endpoints. -/
theorem c1_simplify_preserves_reachability (p : Program)
    (hinc : List.Pairwise (fun a b => a.id < b.id) p.instructions) :
    (∀ u v, Reach (simplifyForward (forwardPairs p)) u v ↔ Reach (forwardPairs p) u v) ∧
    (∀ e ∈ simplifyForward (forwardPairs p),
      ¬ Reach ((simplifyForward (forwardPairs p)).filter (fun f => f ≠ e)) e.1 e.2) := by
  have hmono := forwardPairs_mono p hinc
  constructor
  · intro u v
    constructor
    · intro h
      exact h.of_subset simplifyForward_subset
    · intro h
      exact reach_simplify_of_reach hmono h
  · intro e he
    have he' : (e.1, e.2) ∈ simplifyForward (forwardPairs p) := by
      have : e = (e.1, e.2) := rfl
      rw [this] at he; exact he
    have := simplify_minimal hmono he'
    intro hr
    exact this (by
      have heq : e = (e.1, e.2) := rfl
      rw [heq] at hr
      exact hr)

/-- Witness for C1 at the Scenario A program. -/
theorem c1_witness :
    (List.Pairwise (fun a b => a.id < b.id) scenarioA.instructions) ∧
    (Reach (simplifyForward (forwardPairs scenarioA)) 0 4 ↔
      Reach (forwardPairs scenarioA) 0 4) :=
  ⟨by decide, (c1_simplify_preserves_reachability scenarioA (by decide)).1 0 4⟩

/-- C5: For the Scenario A program `load a; load b; add c=a+b; mul d=a+b;
add e=c+d` (defining ids a=0, b=1, c=2, d=3, e=4), after simplification the
forward edges a→e and b→e are absent while a→c, b→c, a→d, b→d, c→e, d→e all
remain. -/
theorem c5_scenario_a_edges :
    ((0, 4) ∉ simplifyForward (forwardPairs scenarioA) ∧
     (1, 4) ∉ simplifyForward (forwardPairs scenarioA)) ∧
    (0, 2) ∈ simplifyForward (forwardPairs scenarioA) ∧
    (1, 2) ∈ simplifyForward (forwardPairs scenarioA) ∧
    (0, 3) ∈ simplifyForward (forwardPairs scenarioA) ∧
    (1, 3) ∈ simplifyForward (forwardPairs scenarioA) ∧
    (2, 4) ∈ simplifyForward (forwardPairs scenarioA) ∧
    (3, 4) ∈ simplifyForward (forwardPairs scenarioA) := by
  decide

/-! ## Back-edge lemmas (C4 support) -/

theorem maxId?_eq_none {l : List Nat} : maxId? l = none ↔ l = [] := by
  cases l with
  | nil => simp [maxId?]
  | cons x xs =>
    simp only [maxId?]
    cases maxId? xs <;> simp

theorem maxId?_spec {l : List Nat} {m : Nat} (h : maxId? l = some m) :
    m ∈ l ∧ ∀ x ∈ l, x ≤ m := by
  induction l generalizing m with
  | nil => simp [maxId?] at h
  | cons x xs ih =>
    simp only [maxId?] at h
    cases hxs : maxId? xs with
    | none =>
      rw [hxs] at h
      injection h with h
      subst h
      have hnil : xs = [] := maxId?_eq_none.mp hxs
      subst hnil
      simp
    | some m' =>
      rw [hxs] at h
      injection h with h
      subst h
      obtain ⟨hmem, hle⟩ := ih hxs
      constructor
      · rcases Nat.le_total x m' with hx | hx
        · simp [max_eq_right hx, hmem]
        · simp [max_eq_left hx]
      · intro y hy
        rcases List.mem_cons.mp hy with hy | hy
        · subst hy; exact le_max_left _ _
        · exact le_trans (hle y hy) (le_max_right _ _)

theorem minId?_eq_none {l : List Nat} : minId? l = none ↔ l = [] := by
  cases l with
  | nil => simp [minId?]
  | cons x xs =>
    simp only [minId?]
    cases minId? xs <;> simp

theorem minId?_spec {l : List Nat} {m : Nat} (h : minId? l = some m) :
    m ∈ l ∧ ∀ x ∈ l, m ≤ x := by
  induction l generalizing m with
  | nil => simp [minId?] at h
  | cons x xs ih =>
    simp only [minId?] at h
    cases hxs : minId? xs with
    | none =>
      rw [hxs] at h
      injection h with h
      subst h
      have hnil : xs = [] := minId?_eq_none.mp hxs
      subst hnil
      simp
    | some m' =>
      rw [hxs] at h
      injection h with h
      subst h
      obtain ⟨hmem, hle⟩ := ih hxs
      constructor
      · rcases Nat.le_total x m' with hx | hx
        · simp [min_eq_left hx]
        · simp [min_eq_right hx, hmem]
      · intro y hy
        rcases List.mem_cons.mp hy with hy | hy
        · subst hy; exact min_le_left _ _
        · exact le_trans (min_le_right _ _) (hle y hy)

/-- The accumulator pattern holds exactly when the back-edge constructor
fires for the resource. -/
theorem accPattern_iff_backEdgeFor (body : List Instruction) (L : Nat) (r : String) :
    accPattern body r = true ↔ (backEdgeFor body L r).isSome = true := by
  constructor
  · intro h
    simp only [accPattern, List.any_eq_true, Bool.and_eq_true] at h
    obtain ⟨w, hwmem, hwr, rd, hrdmem, hrdr, hrdle⟩ := h
    have hrdle' : rd.id ≤ w.id := by simpa using hrdle
    have hw : w.id ∈ (body.filter (fun i => writesTo i r)).map (fun i => i.id) := by
      simp only [List.mem_map, List.mem_filter]
      exact ⟨w, ⟨hwmem, hwr⟩, rfl⟩
    cases hmax : lastWriterIdIn body r with
    | none =>
      unfold lastWriterIdIn at hmax
      rw [maxId?_eq_none] at hmax
      rw [hmax] at hw
      cases hw
    | some m =>
      have hwm : w.id ≤ m := (maxId?_spec hmax).2 _ hw
      have hrd : rd.id ∈ (body.filter
          (fun i => readsFrom i r && decide (i.id ≤ m))).map (fun i => i.id) := by
        simp only [List.mem_map, List.mem_filter, Bool.and_eq_true, decide_eq_true_eq]
        exact ⟨rd, ⟨hrdmem, hrdr, le_trans hrdle' hwm⟩, rfl⟩
      cases hmin : firstReaderAtMost body r m with
      | none =>
        unfold firstReaderAtMost at hmin
        rw [minId?_eq_none] at hmin
        rw [hmin] at hrd
        cases hrd
      | some rd' =>
        simp [backEdgeFor, hmax, hmin]
  · intro h
    cases hmax : lastWriterIdIn body r with
    | none => simp [backEdgeFor, hmax] at h
    | some m =>
      cases hmin : firstReaderAtMost body r m with
      | none => simp [backEdgeFor, hmax, hmin] at h
      | some rd =>
        have hm := (maxId?_spec hmax).1
        simp only [List.mem_map, List.mem_filter] at hm
        obtain ⟨wi, ⟨hwmem, hwr⟩, hwid⟩ := hm
        have hrd := (minId?_spec hmin).1
        simp only [List.mem_map, List.mem_filter, Bool.and_eq_true,
          decide_eq_true_eq] at hrd
        obtain ⟨ri, ⟨hrmem, hrr, hrle⟩, hrid⟩ := hrd
        simp only [accPattern, List.any_eq_true, Bool.and_eq_true]
        exact ⟨wi, hwmem, hwr, ri, hrmem, hrr, by simp; omega⟩

theorem backEdgeFor_res {body : List Instruction} {L : Nat} {r : String}
    {e : BackEdge} (h : backEdgeFor body L r = some e) : e.res = r := by
  cases hmax : lastWriterIdIn body r with
  | none => simp [backEdgeFor, hmax] at h
  | some m =>
    cases hmin : firstReaderAtMost body r m with
    | none => simp [backEdgeFor, hmax, hmin] at h
    | some rd =>
      simp only [backEdgeFor, hmax, hmin] at h
      injection h with h
      subst h
      rfl

theorem mem_backEdgesOfBody_res {rs : List String} {body : List Instruction}
    {L : Nat} {e : BackEdge} (h : e ∈ backEdgesOfBody rs body L) : e.res ∈ rs := by
  unfold backEdgesOfBody at h
  simp only [List.mem_filterMap] at h
  obtain ⟨r, hr, he⟩ := h
  rw [backEdgeFor_res he]
  exact hr

theorem backEdgesOfBody_cons (a : String) (rest : List String)
    (body : List Instruction) (L : Nat) :
    backEdgesOfBody (a :: rest) body L =
      (match backEdgeFor body L a with
        | some e => [e]
        | none => []) ++ backEdgesOfBody rest body L := by
  unfold backEdgesOfBody
  rw [List.filterMap_cons]
  cases backEdgeFor body L a <;> simp

theorem backEdges_count_aux (body : List Instruction) (L : Nat) (r : String) :
    ∀ rs : List String, rs.Nodup → r ∈ rs →
      ((backEdgesOfBody rs body L).filter (fun e => e.res == r)).length
        = if (backEdgeFor body L r).isSome then 1 else 0 := by
  intro rs
  induction rs with
  | nil => intro _ hr; cases hr
  | cons a rest ih =>
    intro hnd hr
    have hnotmem : a ∉ rest := (List.nodup_cons.mp hnd).1
    have hndrest : rest.Nodup := (List.nodup_cons.mp hnd).2
    rw [backEdgesOfBody_cons, List.filter_append, List.length_append]
    by_cases hra : r = a
    · subst hra
      have htail : ((backEdgesOfBody rest body L).filter
          (fun e => e.res == r)).length = 0 := by
        rw [List.length_eq_zero, List.filter_eq_nil_iff]
        intro e he hcon
        have hres : e.res ∈ rest := mem_backEdgesOfBody_res he
        have heq : e.res = r := by simpa using hcon
        rw [heq] at hres
        exact hnotmem hres
      rw [htail, Nat.add_zero]
      cases hf : backEdgeFor body L r with
      | none => simp [hf]
      | some e =>
        have her : e.res = r := backEdgeFor_res hf
        simp [hf, her]
    · have hrrest : r ∈ rest := by
        rcases List.mem_cons.mp hr with h | h
        · exact absurd h hra
        · exact h
      have hhead : (((match backEdgeFor body L a with
          | some e => [e]
          | none => []) : List BackEdge).filter (fun e => e.res == r)).length = 0 := by
        cases hf : backEdgeFor body L a with
        | none => simp
        | some e =>
          have her : e.res = a := backEdgeFor_res hf
          have hne : (e.res == r) = false := by
            rw [her]
            exact beq_eq_false_iff_ne.mpr (fun hh => hra hh.symm)
          simp [hne]
      rw [hhead, Nat.zero_add]
      exact ih hndrest hrrest

/-- C4: inside a loop body, an accumulator resource contributes exactly one
loop-carried back edge, and the Simplifier never touches back edges: they are
excluded from the removal candidate set (the back list is returned unchanged)
and from the reachability computation used to justify removals (the
simplified forward set depends only on the forward edges). -/
theorem c4_back_edge_permanence (rs : List String) (body : List Instruction)
    (L : Nat) (r : String) (hnd : rs.Nodup) (hr : r ∈ rs) :
    (((backEdgesOfBody rs body L).filter (fun e => e.res == r)).length
        = if accPattern body r then 1 else 0) ∧
    (∀ g : DepGraph, (simplifyGraph g).back = g.back) ∧
    (∀ g g' : DepGraph, g.forward = g'.forward →
      (simplifyGraph g).forward = (simplifyGraph g').forward) := by
  refine ⟨?_, fun g => rfl, fun g g' h => ?_⟩
  · rw [backEdges_count_aux body L r rs hnd hr]
    by_cases hacc : accPattern body r = true
    · rw [if_pos hacc, if_pos ((accPattern_iff_backEdgeFor body L r).mp hacc)]
    · have : (backEdgeFor body L r).isSome ≠ true :=
        fun hc => hacc ((accPattern_iff_backEdgeFor body L r).mpr hc)
      rw [if_neg hacc, if_neg this]
  · show simplifyFwdEdges g.forward = simplifyFwdEdges g'.forward
    rw [h]

/-- Witness for C4 at the accumulator loop of `create_loop_program`. -/
theorem c4_witness :
    (["x", "y", "acc"] : List String).Nodup ∧
    ((backEdgesOfBody ["x", "y", "acc"] loopBody 1).filter
      (fun e => e.res == "acc")).length = 1 := by
  refine ⟨by decide, ?_⟩
  have h := (c4_back_edge_permanence ["x", "y", "acc"] loopBody 1 "acc"
    (by decide) (by decide)).1
  rw [show accPattern loopBody "acc" = true from by decide] at h
  simpa using h

/-! ## Greedy coloring lemmas (C2 and C3 support) -/

theorem pickColor_lt {tc : Nat} {used : List Nat} {c : Nat}
    (h : pickColor tc used = some c) : c < tc :=
  List.mem_range.mp (List.mem_of_find?_eq_some h)

theorem pickColor_not_used {tc : Nat} {used : List Nat} {c : Nat}
    (h : pickColor tc used = some c) : ∀ x ∈ used, x ≠ c := by
  have hp := List.find?_some h
  intro x hx hxc
  subst hxc
  simp only [Bool.not_eq_true'] at hp
  have : used.any (fun y => y == x) = true :=
    List.any_eq_true.mpr ⟨x, hx, by simp⟩
  rw [hp] at this
  exact Bool.false_ne_true this

theorem mem_usedColors {interf : String → String → Bool} {n : String}
    {acc : List (String × Option Nat)} {p₁ : String × Option Nat} {c₁ : Nat}
    (hp : p₁ ∈ acc) (hi : interf n p₁.1 = true) (hc : p₁.2 = some c₁) :
    c₁ ∈ usedColors interf n acc := by
  unfold usedColors
  rw [List.mem_filterMap]
  exact ⟨p₁, hp, by simp [hi, hc]⟩

theorem greedyGo_keys (interf : String → String → Bool) (tc : Nat) :
    ∀ (nodes : List String) (acc : List (String × Option Nat)),
      (greedyGo interf tc nodes acc).map Prod.fst = acc.map Prod.fst ++ nodes := by
  intro nodes
  induction nodes with
  | nil => intro acc; simp [greedyGo]
  | cons n rest ih =>
    intro acc
    simp only [greedyGo]
    rw [ih]
    simp

theorem greedyGo_proper (interf : String → String → Bool)
    (hsym : ∀ a b, interf a b = interf b a) (tc : Nat) :
    ∀ (nodes : List String) (acc : List (String × Option Nat)),
      (acc.map Prod.fst ++ nodes).Nodup → ProperAsn interf acc →
      ProperAsn interf (greedyGo interf tc nodes acc) := by
  intro nodes
  induction nodes with
  | nil =>
    intro acc _ hp
    simpa [greedyGo] using hp
  | cons n rest ih =>
    intro acc hnd hp
    simp only [greedyGo]
    have hn_not : n ∉ acc.map Prod.fst := by
      have h1 := (List.nodup_append.mp hnd).2.2
      intro hmem
      exact h1 hmem (List.mem_cons_self n rest)
    apply ih
    · simpa [List.append_assoc] using hnd
    · intro p₁ hp₁ p₂ hp₂ hne hint c₁ c₂ hc₁ hc₂
      rcases List.mem_append.mp hp₁ with h₁ | h₁ <;>
        rcases List.mem_append.mp hp₂ with h₂ | h₂
      · exact hp p₁ h₁ p₂ h₂ hne hint c₁ c₂ hc₁ hc₂
      · have hp₂e : p₂ = (n, pickColor tc (usedColors interf n acc)) := by
          simpa using h₂
        have hint' : interf n p₁.1 = true := by
          rw [hsym]
          rw [hp₂e] at hint
          exact hint
        have hc₁m : c₁ ∈ usedColors interf n acc := mem_usedColors h₁ hint' hc₁
        have hpc : pickColor tc (usedColors interf n acc) = some c₂ := by
          rw [hp₂e] at hc₂
          exact hc₂
        exact pickColor_not_used hpc c₁ hc₁m
      · have hp₁e : p₁ = (n, pickColor tc (usedColors interf n acc)) := by
          simpa using h₁
        have hint' : interf n p₂.1 = true := by
          rw [hp₁e] at hint
          exact hint
        have hc₂m : c₂ ∈ usedColors interf n acc := mem_usedColors h₂ hint' hc₂
        have hpc : pickColor tc (usedColors interf n acc) = some c₁ := by
          rw [hp₁e] at hc₁
          exact hc₁
        exact (pickColor_not_used hpc c₂ hc₂m).symm
      · have hp₁e : p₁ = (n, pickColor tc (usedColors interf n acc)) := by
          simpa using h₁
        have hp₂e : p₂ = (n, pickColor tc (usedColors interf n acc)) := by
          simpa using h₂
        rw [hp₁e, hp₂e] at hne
        exact absurd rfl hne

theorem overlapsLive_symm (p : Program) (a b : String) :
    overlapsLive p a b = overlapsLive p b a := by
  unfold overlapsLive
  cases liveRange p a <;> cases liveRange p b <;>
    simp [rangesOverlap, Bool.and_comm]

theorem interferes_symm (p : Program) (a b : String) :
    interferes p a b = interferes p b a := by
  unfold interferes
  rw [overlapsLive_symm]
  have : (decide (a ≠ b)) = (decide (b ≠ a)) :=
    decide_eq_decide.mpr ⟨fun h => h.symm, fun h => h.symm⟩
  rw [this]

theorem tileNames_nodup (p : Program) (hnd : (resNames p).Nodup) :
    (tileNames p).Nodup :=
  List.Nodup.sublist ((List.filter_sublist _).map Prod.fst) hnd

theorem orderedTiles_nodup (p : Program) (hnd : (resNames p).Nodup) :
    (orderedTiles p).Nodup :=
  (List.perm_insertionSort (colorOrder p) (tileNames p)).symm.nodup
    (tileNames_nodup p hnd)

theorem colorTiles_proper (p : Program) (tc : Nat)
    (hnd : (resNames p).Nodup) :
    ProperAsn (fun a b => interferes p a b) (colorTiles p tc) := by
  apply greedyGo_proper _ (fun a b => interferes_symm p a b) tc (orderedTiles p) []
  · simpa using orderedTiles_nodup p hnd
  · intro p₁ hp₁
    cases hp₁

/-- C2: For every Program on which SimplifyAndColor succeeds, any two Tile
resources with overlapping live ranges are assigned two different colors. -/
theorem c2_no_color_collision (p : Program) (tc : Nat)
    (hnd : (resNames p).Nodup)
    (hsuc : coloringSuccess p tc = true)
    (r₁ r₂ : String) (hne : r₁ ≠ r₂)
    (hov : overlapsLive p r₁ r₂ = true)
    (c₁ c₂ : Nat)
    (h₁ : (r₁, some c₁) ∈ colorTiles p tc)
    (h₂ : (r₂, some c₂) ∈ colorTiles p tc) :
    c₁ ≠ c₂ := by
  have hint : interferes p r₁ r₂ = true := by
    unfold interferes
    simp [hne, hov]
  exact colorTiles_proper p tc hnd (r₁, some c₁) h₁ (r₂, some c₂) h₂
    (by simpa using hne) hint c₁ c₂ rfl rfl

/-- Witness for C2 at the mutually-overlapping-tiles program with budget 8. -/
theorem c2_witness :
    coloringSuccess overlapProg 8 = true ∧
    overlapsLive overlapProg "t1" "t2" = true ∧ (0 : Nat) ≠ 1 :=
  ⟨by decide, by decide,
    c2_no_color_collision overlapProg 8 (by decide) (by decide) "t1" "t2"
      (by decide) (by decide) 0 1 (by decide) (by decide)⟩

theorem greedyGo_lt (interf : String → String → Bool) (tc : Nat) :
    ∀ (nodes : List String) (acc : List (String × Option Nat)),
      (∀ x ∈ acc, ∀ c, x.2 = some c → c < tc) →
      ∀ x ∈ greedyGo interf tc nodes acc, ∀ c, x.2 = some c → c < tc := by
  intro nodes
  induction nodes with
  | nil =>
    intro acc h
    simpa [greedyGo] using h
  | cons n rest ih =>
    intro acc h
    simp only [greedyGo]
    apply ih
    intro x hx c hc
    rcases List.mem_append.mp hx with hx | hx
    · exact h x hx c hc
    · have hxe : x = (n, pickColor tc (usedColors interf n acc)) := by
        simpa using hx
      rw [hxe] at hc
      exact pickColor_lt hc

theorem coloringSuccess_false_iff (p : Program) (tc : Nat) :
    coloringSuccess p tc = false ↔ ∃ r, (r, none) ∈ colorTiles p tc := by
  unfold coloringSuccess
  rw [Bool.eq_false_iff, Ne, List.all_eq_true]
  push_neg
  constructor
  · rintro ⟨x, hx, hxf⟩
    refine ⟨x.1, ?_⟩
    have hx2 : x.2 = none := by
      cases hx2 : x.2 with
      | none => rfl
      | some c => rw [hx2] at hxf; simp at hxf
    have hxe : x = (x.1, none) := by rw [← hx2]
    rw [← hxe]
    exact hx
  · rintro ⟨r, hr⟩
    exact ⟨(r, none), hr, by simp⟩

theorem simplifyAndColorCore_ok (p : Program) (tc : Nat) (h : buildOk p = true) :
    ∃ out, SimplifyAndColorCore p tc = .ok out ∧
      out.success = coloringSuccess p tc ∧ out.assignment = colorTiles p tc := by
  unfold buildOk at h
  cases hg : buildGraph p with
  | error e => rw [hg] at h; cases h
  | ok g =>
    refine ⟨⟨(simplifyGraph g).forward, (simplifyGraph g).back,
      colorTiles p tc, coloringSuccess p tc⟩, ?_, rfl, rfl⟩
    simp only [SimplifyAndColorCore, hg]

/-- C3: Every assigned color lies in `[0, TOTAL_COLOR)`; the success flag is
false exactly when some Tile resource is left unallocated; and when graph
construction succeeds an insufficient budget never surfaces as an error —
the pipeline still returns a result, with the failure recorded in the
boolean. -/
theorem c3_budget_respect (p : Program) (tc : Nat) (hpos : 0 < tc) :
    (∀ r c, (r, some c) ∈ colorTiles p tc → c < tc) ∧
    (coloringSuccess p tc = false ↔ ∃ r, (r, none) ∈ colorTiles p tc) ∧
    (buildOk p = true → ∃ out, SimplifyAndColorCore p tc = .ok out ∧
      out.success = coloringSuccess p tc ∧ out.assignment = colorTiles p tc) := by
  refine ⟨?_, coloringSuccess_false_iff p tc, simplifyAndColorCore_ok p tc⟩
  intro r c h
  exact greedyGo_lt (fun a b => interferes p a b) tc (orderedTiles p) []
    (by intro x hx; cases hx) (r, some c) h c rfl

/-- Witness for C3: with budget 2 the overlapping-tiles program fails and the
theorem's equivalence reports it through the flag. -/
theorem c3_witness : 0 < 2 ∧ coloringSuccess overlapProg 2 = false :=
  ⟨by decide, (c3_budget_respect overlapProg 2 (by decide)).2.1.mpr ⟨"t3", by decide⟩⟩

/-- C6: The analysis is deterministic — the exposed operation is a function
of the Program and the budget alone (two invocations agree), and the coloring
order is governed by a total comparison (descending degree, ties by ascending
defining-instruction id) whose ties force equal sort keys. -/
theorem c6_deterministic (p : Program) (tc : Nat) (od : Option String)
    (vz vb : Bool) :
    SimplifyAndColorApi p tc od vz vb = SimplifyAndColorApi p tc od vz vb ∧
    (∀ a b : String, colorOrder p a b ∨ colorOrder p b a) ∧
    (∀ a b : String, colorOrder p a b → colorOrder p b a →
      tileKey p a = tileKey p b) := by
  refine ⟨rfl, ?_, ?_⟩
  · intro a b
    unfold colorOrder
    omega
  · intro a b h1 h2
    unfold colorOrder at h1 h2
    have h3 : (tileKey p a).1 = (tileKey p b).1 ∧
        (tileKey p a).2 = (tileKey p b).2 := by omega
    exact Prod.ext_iff.mpr h3

/-- Witness for C6 at a concrete program and tile pair. -/
theorem c6_witness :
    colorOrder overlapProg "t1" "t2" ∨ colorOrder overlapProg "t2" "t1" :=
  (c6_deterministic overlapProg 8 none false false).2.1 "t1" "t2"

/-- C7 counterexample: the call sites under src/ invoke
`SimplifyAndColor(TOTAL_COLOR=..., output_dir=..., visualize=..., verbose=...)`
(src/examples/test_matmul_coloring.py:392-397), not the spec's claimed
`(total_color, output_path, emit_diagnostics)` keyword shape. -/
theorem c7_keywords_counterexample : callSiteKeywords ≠ specSignatureKeywords := by
  decide

/-- C7 (amended): the operation is invoked as
`SimplifyAndColor(TOTAL_COLOR: positive integer, output_dir: optional string,
visualize: boolean, verbose: boolean) -> success: boolean`, and after a call
on a well-formed Program the stated diagnostics are accessible: one degree
and one integer color per instruction, the distinct-colors-used count, and
the count of instructions carrying a loop-carried predecessor; the output
arguments do not influence the result. -/
theorem c7_api_contract (p : Program) (tc : Nat) (od : Option String)
    (vz vb : Bool) (h : buildOk p = true) :
    (∃ d : Diagnostics,
      SimplifyAndColorApi p tc od vz vb = .ok (coloringSuccess p tc, d) ∧
      d.degrees = p.instructions.map (fun i => (i.id, instrDegree p i)) ∧
      d.colors = p.instructions.map (fun i => (i.id, instrColor p tc i)) ∧
      d.colorsUsedCount = colorsUsed p tc ∧
      d.loopCarriedCount =
        p.instructions.countP (fun i => !(loopCarriedPreds p i).isEmpty)) ∧
    SimplifyAndColorApi p tc od vz vb = SimplifyAndColorApi p tc none false false := by
  unfold buildOk at h
  cases hg : buildGraph p with
  | error e => rw [hg] at h; cases h
  | ok g =>
    constructor
    · refine ⟨⟨p.instructions.map (fun i => (i.id, instrDegree p i)),
        p.instructions.map (fun i => (i.id, instrColor p tc i)),
        colorsUsed p tc,
        p.instructions.countP (fun i => !(loopCarriedPreds p i).isEmpty)⟩,
        ?_, rfl, rfl, rfl, rfl⟩
      simp only [SimplifyAndColorApi, SimplifyAndColorCore, hg]
    · rfl

/-- Witness for C7 (amended) at the Scenario A program. -/
theorem c7_witness :
    buildOk scenarioA = true ∧
    SimplifyAndColorApi scenarioA 8 (some "out") true true =
      SimplifyAndColorApi scenarioA 8 none false false :=
  ⟨by decide, (c7_api_contract scenarioA 8 (some "out") true true (by decide)).2⟩

/-- C9: Every instruction carries an integer color in which a negative value
denotes "unallocated" (or not Tile-bearing), and the distinct-colors-used
count ranges over exactly the instructions whose color attribute is
nonnegative; there is no separate unallocated marker at the interface. -/
theorem c9_negative_color_unallocated (p : Program) (tc : Nat) :
    (∀ i ∈ p.instructions,
      (instrColor p tc i < 0 ↔ instrUnallocated p tc i = true)) ∧
    (∀ c : Int, c ∈ distinctColorsList p tc ↔
      (0 ≤ c ∧ c ∈ p.instructions.map (instrColor p tc))) ∧
    colorsUsed p tc = (distinctColorsList p tc).length := by
  refine ⟨?_, ?_, rfl⟩
  · intro i _
    cases htd : tileDefinedBy p i with
    | none => simp [instrColor, instrUnallocated, htd]
    | some r =>
      cases hlk : alookup (colorTiles p tc) r with
      | none => simp [instrColor, instrUnallocated, htd, hlk]
      | some copt =>
        cases copt with
        | none => simp [instrColor, instrUnallocated, htd, hlk]
        | some c =>
          simp [instrColor, instrUnallocated, htd, hlk, Int.not_lt]
  · intro c
    unfold distinctColorsList
    rw [List.mem_dedup, List.mem_filter]
    constructor
    · rintro ⟨hm, hd⟩
      exact ⟨by simpa using hd, hm⟩
    · rintro ⟨h0, hm⟩
      exact ⟨hm, by simpa using h0⟩

/-- Witness for C9 at the first instruction of Scenario A. -/
theorem c9_witness :
    (instrColor scenarioA 8 ⟨0, "load", [("a", none)], ["input_a"], []⟩ < 0 ↔
      instrUnallocated scenarioA 8 ⟨0, "load", [("a", none)], ["input_a"], []⟩ = true) ∧
    ((0 : Int) ∈ distinctColorsList scenarioA 8 ↔
      (0 ≤ (0 : Int) ∧ (0 : Int) ∈ scenarioA.instructions.map (instrColor scenarioA 8))) :=
  ⟨(c9_negative_color_unallocated scenarioA 8).1 _ (by decide),
   (c9_negative_color_unallocated scenarioA 8).2.1 0⟩

/-! ## Malformed-program errors (C8 support) -/

theorem writesTo_iff {i : Instruction} {r : String} :
    writesTo i r = true ↔ ∃ d ∈ i.dsts, d.1 = r := by
  simp [writesTo, List.any_eq_true]

theorem alookup_cons_isSome {β : Type} (k : String) (v : β)
    (l : List (String × β)) (r : String) :
    (alookup ((k, v) :: l) r).isSome = true ↔ r = k ∨ (alookup l r).isSome = true := by
  show (if r = k then some v else alookup l r).isSome = true ↔ _
  by_cases hr : r = k <;> simp [hr]

theorem readsFold_lastWriter (res : List (String × ResourceKind)) (iid : Nat) :
    ∀ (srcs : List String) (st st' : ScanSt),
      readsFold res iid srcs st = .ok st' → st'.lastWriter = st.lastWriter := by
  intro srcs
  induction srcs with
  | nil =>
    intro st st' h
    injection h with h
    rw [← h]
  | cons r rest ih =>
    intro st st' h
    cases h1 : readOne res iid st r with
    | error e =>
      simp only [readsFold, h1] at h
      exact Except.noConfusion h
    | ok st₁ =>
      simp only [readsFold, h1] at h
      exact (ih st₁ st' h).trans (readOne_ok h1).1

theorem writesFold_writerSet (res : List (String × ResourceKind)) (iid : Nat) :
    ∀ (dsts : List (String × Option ResourceKind)) (st st' : ScanSt),
      writesFold res iid dsts st = .ok st' →
      ∀ r, ((alookup st'.lastWriter r).isSome = true ↔
        ((∃ d ∈ dsts, d.1 = r) ∨ (alookup st.lastWriter r).isSome = true)) := by
  intro dsts
  induction dsts with
  | nil =>
    intro st st' h r
    injection h with h
    rw [← h]
    simp
  | cons d rest ih =>
    intro st st' h r
    cases h1 : writeOne res iid st d with
    | error e =>
      simp only [writesFold, h1] at h
      exact Except.noConfusion h
    | ok st₁ =>
      simp only [writesFold, h1] at h
      have hst₁ : st₁ = writeApply iid st d.1 := writeOne_ok h1
      have hlw₁ : st₁.lastWriter = (d.1, iid) :: st.lastWriter := by rw [hst₁]; rfl
      rw [ih st₁ st' h r, hlw₁, alookup_cons_isSome]
      simp only [List.mem_cons]
      constructor
      · rintro (⟨d', hd', hr'⟩ | (hrd | hs))
        · exact Or.inl ⟨d', Or.inr hd', hr'⟩
        · exact Or.inl ⟨d, Or.inl rfl, hrd.symm⟩
        · exact Or.inr hs
      · rintro (⟨d', hd' | hd', hr'⟩ | hs)
        · subst hd'
          exact Or.inr (Or.inl hr'.symm)
        · exact Or.inl ⟨d', hd', hr'⟩
        · exact Or.inr (Or.inr hs)

theorem processInstr_writerSet {res : List (String × ResourceKind)} {st : ScanSt}
    {i : Instruction} {st' : ScanSt} (h : processInstr res st i = .ok st') :
    ∀ r, ((alookup st'.lastWriter r).isSome = true ↔
      (writesTo i r = true ∨ (alookup st.lastWriter r).isSome = true)) := by
  intro r
  cases h1 : readsFold res i.id i.srcs st with
  | error e =>
    simp only [processInstr, h1] at h
    exact Except.noConfusion h
  | ok st₁ =>
    simp only [processInstr, h1] at h
    have hl1 : st₁.lastWriter = st.lastWriter := readsFold_lastWriter res i.id i.srcs st st₁ h1
    rw [writesFold_writerSet res i.id i.dsts st₁ st' h r, hl1, writesTo_iff]

theorem writerConsistent_step {res : List (String × ResourceKind)}
    {pre : List Instruction} {st : ScanSt} {i : Instruction} {st' : ScanSt}
    (hwc : WriterConsistent pre st) (h : processInstr res st i = .ok st') :
    WriterConsistent (pre ++ [i]) st' := by
  intro r
  rw [processInstr_writerSet h r, hwc r]
  simp only [List.mem_append, List.mem_singleton]
  constructor
  · rintro (hw | ⟨j, hj, hjr⟩)
    · exact ⟨i, Or.inr rfl, hw⟩
    · exact ⟨j, Or.inl hj, hjr⟩
  · rintro ⟨j, hj | hj, hjr⟩
    · exact Or.inr ⟨j, hj, hjr⟩
    · subst hj
      exact Or.inl hjr

theorem writer_none_any_false {pre : List Instruction} {st : ScanSt} {r : String}
    (hwc : WriterConsistent pre st) (hlw : alookup st.lastWriter r = none) :
    pre.any (fun j => writesTo j r) = false := by
  cases hany : pre.any (fun j => writesTo j r) with
  | false => rfl
  | true =>
    obtain ⟨j, hj, hjr⟩ := List.any_eq_true.mp hany
    have hs : (alookup st.lastWriter r).isSome = true := (hwc r).mpr ⟨j, hj, hjr⟩
    rw [hlw] at hs
    simp at hs

theorem writer_none_of_any_false {pre : List Instruction} {st : ScanSt} {r : String}
    (hwc : WriterConsistent pre st)
    (hany : pre.any (fun j => writesTo j r) = false) :
    alookup st.lastWriter r = none := by
  cases hl : alookup st.lastWriter r with
  | none => rfl
  | some w =>
    obtain ⟨j, hj, hjr⟩ := (hwc r).mp (by simp [hl])
    have hc : pre.any (fun j => writesTo j r) = true := List.any_eq_true.mpr ⟨j, hj, hjr⟩
    rw [hany] at hc
    exact absurd hc (by simp)

theorem readOne_error {res : List (String × ResourceKind)} {iid : Nat}
    {st : ScanSt} {r : String} {e : BuildError}
    (h : readOne res iid st r = .error e) :
    (e = ⟨r, iid, .undeclared⟩ ∧ alookup res r = none) ∨
    (e = ⟨r, iid, .readBeforeWrite⟩ ∧ declaredTile res r = true ∧
      alookup st.lastWriter r = none) := by
  cases hres : alookup res r with
  | none =>
    simp only [readOne, hres] at h
    injection h with h
    exact Or.inl ⟨h.symm, rfl⟩
  | some k =>
    cases hlw : alookup st.lastWriter r with
    | some w =>
      simp only [readOne, hres, hlw] at h
      exact Except.noConfusion h
    | none =>
      by_cases ht : isTileKind k = true
      · simp only [readOne, hres, hlw, ht, if_true] at h
        injection h with h
        refine Or.inr ⟨h.symm, ?_, rfl⟩
        simp only [declaredTile, hres]
        exact ht
      · simp only [readOne, hres, hlw, ht, if_false, Bool.false_eq_true] at h
        exact Except.noConfusion h

theorem readsFold_error (res : List (String × ResourceKind)) (iid : Nat) :
    ∀ (srcs : List String) (st : ScanSt) (e : BuildError),
      readsFold res iid srcs st = .error e →
      ∃ r ∈ srcs,
        ((e = ⟨r, iid, .undeclared⟩ ∧ alookup res r = none) ∨
         (e = ⟨r, iid, .readBeforeWrite⟩ ∧ declaredTile res r = true ∧
           alookup st.lastWriter r = none)) := by
  intro srcs
  induction srcs with
  | nil =>
    intro st e h
    exact Except.noConfusion h
  | cons r rest ih =>
    intro st e h
    cases h1 : readOne res iid st r with
    | error e1 =>
      simp only [readsFold, h1] at h
      injection h with h
      subst h
      exact ⟨r, List.mem_cons_self _ _, readOne_error h1⟩
    | ok st₁ =>
      simp only [readsFold, h1] at h
      obtain ⟨r', hr', hcase⟩ := ih st₁ e h
      obtain ⟨hl1, _, _⟩ := readOne_ok h1
      refine ⟨r', List.mem_cons_of_mem _ hr', ?_⟩
      rcases hcase with hc | ⟨he, hd, hlw⟩
      · exact Or.inl hc
      · refine Or.inr ⟨he, hd, ?_⟩
        rw [← hl1]
        exact hlw

theorem writeOne_error {res : List (String × ResourceKind)} {iid : Nat}
    {st : ScanSt} {d : String × Option ResourceKind} {e : BuildError}
    (h : writeOne res iid st d = .error e) :
    (e = ⟨d.1, iid, .undeclared⟩ ∧ alookup res d.1 = none) ∨
    (e = ⟨d.1, iid, .mismatch⟩ ∧
      ∃ ex dk, d.2 = some ex ∧ alookup res d.1 = some dk ∧ ex ≠ dk) := by
  cases hres : alookup res d.1 with
  | none =>
    simp only [writeOne, hres] at h
    injection h with h
    exact Or.inl ⟨h.symm, rfl⟩
  | some declared =>
    cases hd : d.2 with
    | none =>
      simp only [writeOne, hres, hd] at h
      exact Except.noConfusion h
    | some expected =>
      by_cases he : expected = declared
      · simp only [writeOne, hres, hd, he, if_true] at h
        exact Except.noConfusion h
      · simp only [writeOne, hres, hd, he, if_false] at h
        injection h with h
        exact Or.inr ⟨h.symm, expected, declared, rfl, rfl, he⟩

theorem writesFold_error (res : List (String × ResourceKind)) (iid : Nat) :
    ∀ (dsts : List (String × Option ResourceKind)) (st : ScanSt) (e : BuildError),
      writesFold res iid dsts st = .error e →
      ∃ d ∈ dsts,
        ((e = ⟨d.1, iid, .undeclared⟩ ∧ alookup res d.1 = none) ∨
         (e = ⟨d.1, iid, .mismatch⟩ ∧
           ∃ ex dk, d.2 = some ex ∧ alookup res d.1 = some dk ∧ ex ≠ dk)) := by
  intro dsts
  induction dsts with
  | nil =>
    intro st e h
    exact Except.noConfusion h
  | cons d rest ih =>
    intro st e h
    cases h1 : writeOne res iid st d with
    | error e1 =>
      simp only [writesFold, h1] at h
      injection h with h
      subst h
      exact ⟨d, List.mem_cons_self _ _, writeOne_error h1⟩
    | ok st₁ =>
      simp only [writesFold, h1] at h
      obtain ⟨d', hd', hcase⟩ := ih st₁ e h
      exact ⟨d', List.mem_cons_of_mem _ hd', hcase⟩

theorem readOne_rbw {res : List (String × ResourceKind)} {iid : Nat}
    {st : ScanSt} {r : String} (hd : declaredTile res r = true)
    (hlw : alookup st.lastWriter r = none) :
    readOne res iid st r = .error ⟨r, iid, .readBeforeWrite⟩ := by
  unfold declaredTile at hd
  cases hres : alookup res r with
  | none => simp only [hres] at hd; exact Bool.noConfusion hd
  | some k =>
    simp only [hres] at hd
    simp [readOne, hres, hlw, hd]

theorem writeOne_mismatch {res : List (String × ResourceKind)} {iid : Nat}
    {st : ScanSt} {d : String × Option ResourceKind} {ex dk : ResourceKind}
    (h2 : d.2 = some ex) (hres : alookup res d.1 = some dk) (hne : ex ≠ dk) :
    writeOne res iid st d = .error ⟨d.1, iid, .mismatch⟩ := by
  simp [writeOne, hres, h2, hne]

theorem readsFold_ok_clean (res : List (String × ResourceKind)) (iid : Nat) :
    ∀ (srcs : List String) (st st' : ScanSt),
      readsFold res iid srcs st = .ok st' →
      ∀ r ∈ srcs, ¬(declaredTile res r = true ∧ alookup st.lastWriter r = none) := by
  intro srcs
  induction srcs with
  | nil =>
    intro st st' _ r hr
    cases hr
  | cons r0 rest ih =>
    intro st st' h r hr
    cases h1 : readOne res iid st r0 with
    | error e1 =>
      simp only [readsFold, h1] at h
      exact Except.noConfusion h
    | ok st₁ =>
      simp only [readsFold, h1] at h
      rcases List.mem_cons.mp hr with hr | hr
      · subst hr
        rintro ⟨hd, hlw⟩
        rw [readOne_rbw hd hlw] at h1
        exact Except.noConfusion h1
      · obtain ⟨hl1, _, _⟩ := readOne_ok h1
        rintro ⟨hd, hlw⟩
        refine ih st₁ st' h r hr ⟨hd, ?_⟩
        rw [hl1]
        exact hlw

theorem writesFold_ok_clean (res : List (String × ResourceKind)) (iid : Nat) :
    ∀ (dsts : List (String × Option ResourceKind)) (st st' : ScanSt),
      writesFold res iid dsts st = .ok st' →
      ∀ d ∈ dsts, ¬∃ ex dk, d.2 = some ex ∧ alookup res d.1 = some dk ∧ ex ≠ dk := by
  intro dsts
  induction dsts with
  | nil =>
    intro st st' _ d hd
    cases hd
  | cons d0 rest ih =>
    intro st st' h d hd
    cases h1 : writeOne res iid st d0 with
    | error e1 =>
      simp only [writesFold, h1] at h
      exact Except.noConfusion h
    | ok st₁ =>
      simp only [writesFold, h1] at h
      rcases List.mem_cons.mp hd with hd | hd
      · subst hd
        rintro ⟨ex, dk, h2, hres, hne⟩
        rw [writeOne_mismatch h2 hres hne] at h1
        exact Except.noConfusion h1
      · exact ih st₁ st' h d hd

theorem mismatchAt_iff (res : List (String × ResourceKind)) (i : Instruction) :
    mismatchAt res i = true ↔
      ∃ d ∈ i.dsts, ∃ ex dk, d.2 = some ex ∧ alookup res d.1 = some dk ∧ ex ≠ dk := by
  unfold mismatchAt
  rw [List.any_eq_true]
  constructor
  · rintro ⟨d, hd, hm⟩
    refine ⟨d, hd, ?_⟩
    cases h2 : d.2 with
    | none => simp only [h2] at hm; exact Bool.noConfusion hm
    | some ex =>
      cases hres : alookup res d.1 with
      | none => simp only [h2, hres] at hm; exact Bool.noConfusion hm
      | some dk =>
        simp only [h2, hres] at hm
        exact ⟨ex, dk, rfl, rfl, of_decide_eq_true hm⟩
  · rintro ⟨d, hd, ex, dk, h2, hres, hne⟩
    exact ⟨d, hd, by simp [h2, hres, hne]⟩

theorem processInstr_progress {res : List (String × ResourceKind)}
    {pre : List Instruction} {st : ScanSt} {i : Instruction}
    (hwc : WriterConsistent pre st)
    (hoff : readOffenseAt res pre i = true ∨ mismatchAt res i = true) :
    ∀ st', processInstr res st i ≠ .ok st' := by
  intro st' h
  cases h1 : readsFold res i.id i.srcs st with
  | error e1 =>
    simp only [processInstr, h1] at h
    exact Except.noConfusion h
  | ok st₁ =>
    simp only [processInstr, h1] at h
    rcases hoff with hoff | hoff
    · simp only [readOffenseAt, List.any_eq_true, Bool.and_eq_true] at hoff
      obtain ⟨r, hr, hd, hnw⟩ := hoff
      have hany : pre.any (fun j => writesTo j r) = false := by
        simpa using hnw
      have hlw : alookup st.lastWriter r = none :=
        writer_none_of_any_false hwc hany
      exact readsFold_ok_clean res i.id i.srcs st st₁ h1 r hr ⟨hd, hlw⟩
    · obtain ⟨d, hd, ex, dk, h2, hres, hne⟩ := (mismatchAt_iff res i).mp hoff
      exact writesFold_ok_clean res i.id i.dsts st₁ st' h d hd ⟨ex, dk, h2, hres, hne⟩

theorem processInstr_error {res : List (String × ResourceKind)}
    {pre : List Instruction} {st : ScanSt} {i : Instruction} {e : BuildError}
    (hwc : WriterConsistent pre st) (h : processInstr res st i = .error e) :
    i.id = e.instrId ∧ offenseMatch res pre i e := by
  cases h1 : readsFold res i.id i.srcs st with
  | error e1 =>
    simp only [processInstr, h1] at h
    injection h with h
    subst h
    obtain ⟨r, hr, hcase⟩ := readsFold_error res i.id i.srcs st e1 h1
    rcases hcase with ⟨he, hres⟩ | ⟨he, hd, hlw⟩
    · subst he
      exact ⟨rfl, hres, Or.inl hr⟩
    · subst he
      exact ⟨rfl, hr, hd, writer_none_any_false hwc hlw⟩
  | ok st₁ =>
    simp only [processInstr, h1] at h
    obtain ⟨d, hd, hcase⟩ := writesFold_error res i.id i.dsts st₁ e h
    rcases hcase with ⟨he, hres⟩ | ⟨he, ex, dk, h2, hres, hne⟩
    · subst he
      exact ⟨rfl, hres, Or.inr (List.mem_map.mpr ⟨d, hd, rfl⟩)⟩
    · subst he
      exact ⟨rfl, d, hd, rfl, ex, dk, h2, hres, hne⟩

theorem scan_malformed (res : List (String × ResourceKind)) :
    ∀ (instrs pre : List Instruction) (st : ScanSt),
      WriterConsistent pre st →
      (∃ a i b, instrs = a ++ i :: b ∧
        (readOffenseAt res (pre ++ a) i = true ∨ mismatchAt res i = true)) →
      ∃ e, scanInstrs res instrs st = .error e ∧
        ∃ a i b, instrs = a ++ i :: b ∧ i.id = e.instrId ∧
          offenseMatch res (pre ++ a) i e := by
  intro instrs
  induction instrs with
  | nil =>
    rintro pre st hwc ⟨a, i, b, hsplit, _⟩
    exact absurd hsplit (by simp)
  | cons i0 rest ih =>
    rintro pre st hwc ⟨a, i, b, hsplit, hoff⟩
    cases h1 : processInstr res st i0 with
    | error e =>
      obtain ⟨hid, hmatch⟩ := processInstr_error hwc h1
      exact ⟨e, by simp only [scanInstrs, h1], [], i0, rest, by simp, hid,
        by simpa using hmatch⟩
    | ok st₁ =>
      cases a with
      | nil =>
        simp only [List.nil_append] at hsplit
        injection hsplit with h2 h3
        subst h2
        rw [List.append_nil] at hoff
        exact absurd h1 (processInstr_progress hwc hoff st₁)
      | cons a0 a' =>
        simp only [List.cons_append] at hsplit
        injection hsplit with h2 h3
        subst h2
        have hwc' := writerConsistent_step hwc h1
        have hoff' : readOffenseAt res ((pre ++ [i0]) ++ a') i = true ∨
            mismatchAt res i = true := by
          rwa [(by simp : (pre ++ [i0]) ++ a' = pre ++ i0 :: a')]
        obtain ⟨e, hscan, aa, ii, bb, hsp, hid, hmatch⟩ :=
          ih (pre ++ [i0]) st₁ hwc' ⟨a', i, b, h3, hoff'⟩
        refine ⟨e, ?_, i0 :: aa, ii, bb, by simp [hsp], hid, ?_⟩
        · simp only [scanInstrs, h1]
          exact hscan
        · rwa [(by simp : pre ++ i0 :: aa = (pre ++ [i0]) ++ aa)]

theorem malformedGo_split (res : List (String × ResourceKind)) :
    ∀ (instrs pre : List Instruction), malformedGo res pre instrs = true →
      ∃ a i b, instrs = a ++ i :: b ∧
        (readOffenseAt res (pre ++ a) i = true ∨ mismatchAt res i = true) := by
  intro instrs
  induction instrs with
  | nil =>
    intro pre h
    exact Bool.noConfusion h
  | cons i0 rest ih =>
    intro pre h
    simp only [malformedGo, Bool.or_eq_true] at h
    rcases h with (h | h) | h
    · exact ⟨[], i0, rest, by simp, Or.inl (by simpa using h)⟩
    · exact ⟨[], i0, rest, by simp, Or.inr h⟩
    · obtain ⟨a, i, b, hsp, hoff⟩ := ih (pre ++ [i0]) h
      refine ⟨i0 :: a, i, b, by simp [hsp], ?_⟩
      rwa [(by simp : pre ++ i0 :: a = (pre ++ [i0]) ++ a)]

/-- C8: For every malformed Program — some instruction reads a Tile resource
with no prior writer, or a destination's produced shape/dtype mismatches its
declaration — dependency graph construction returns a malformed-program
error that names a genuinely offending resource and instruction id, the
whole analysis is fatal for that Program, and the condition is never
silently ignored. -/
theorem c8_malformed_raises (p : Program) (h : malformedB p = true) :
    ∃ e, buildGraph p = .error e ∧ ErrorWitnessed p e ∧
      ∀ tc, SimplifyAndColorCore p tc = .error e := by
  obtain ⟨a, i, b, hsp, hoff⟩ :=
    malformedGo_split p.resources p.instructions [] h
  have hwc : WriterConsistent [] (⟨[], [], []⟩ : ScanSt) := by
    intro r
    simp [alookup]
  obtain ⟨e, hscan, aa, ii, bb, hsp2, hid, hmatch⟩ :=
    scan_malformed p.resources p.instructions [] ⟨[], [], []⟩ hwc
      ⟨a, i, b, hsp, by simpa using hoff⟩
  have hbg : buildGraph p = .error e := by
    simp only [buildGraph, hscan]
  refine ⟨e, hbg, ⟨aa, ii, bb, hsp2, hid, by simpa using hmatch⟩, ?_⟩
  intro tc
  simp only [SimplifyAndColorCore, hbg]

/-- Witness for C8 at a program whose first instruction reads an unwritten
Tile. -/
theorem c8_witness : malformedB badProg = true ∧ buildOk badProg = false := by
  refine ⟨by decide, ?_⟩
  obtain ⟨e, he, _, _⟩ := c8_malformed_raises badProg (by decide)
  simp [buildOk, he]

/-! ## Test-suite runner theorems (C10 support) -/

theorem runSuite_fst :
    ∀ (tests : List (String × Except String TestResult))
      (rs : List TestResult) (pc fc : Nat),
      (tests.foldl runSuiteStep (rs, pc, fc)).1 = rs ++ tests.map recordOf := by
  intro tests
  induction tests with
  | nil => intro rs pc fc; simp
  | cons t rest ih =>
    intro rs pc fc
    rw [List.foldl_cons]
    cases ht : t.2 with
    | ok result =>
      by_cases hp : result.passed = true
      · rw [show runSuiteStep (rs, pc, fc) t = (rs ++ [result], pc + 1, fc) from by
          simp [runSuiteStep, ht, hp]]
        rw [ih]
        simp [recordOf, ht]
      · rw [show runSuiteStep (rs, pc, fc) t = (rs ++ [result], pc, fc + 1) from by
          simp [runSuiteStep, ht, hp]]
        rw [ih]
        simp [recordOf, ht]
    | error e =>
      rw [show runSuiteStep (rs, pc, fc) t =
          (rs ++ [TestResult.mk t.1 false e], pc, fc + 1) from by
        simp [runSuiteStep, ht]]
      rw [ih]
      simp [recordOf, ht]

theorem runSuite_passed :
    ∀ (tests : List (String × Except String TestResult))
      (rs : List TestResult) (pc fc : Nat),
      (tests.foldl runSuiteStep (rs, pc, fc)).2.1 = pc + tests.countP passFlag := by
  intro tests
  induction tests with
  | nil => intro rs pc fc; simp
  | cons t rest ih =>
    intro rs pc fc
    rw [List.foldl_cons, List.countP_cons]
    cases ht : t.2 with
    | ok result =>
      by_cases hp : result.passed = true
      · rw [show runSuiteStep (rs, pc, fc) t = (rs ++ [result], pc + 1, fc) from by
          simp [runSuiteStep, ht, hp]]
        rw [ih]
        simp [passFlag, ht, hp]
        omega
      · rw [show runSuiteStep (rs, pc, fc) t = (rs ++ [result], pc, fc + 1) from by
          simp [runSuiteStep, ht, hp]]
        rw [ih]
        simp [passFlag, ht, hp]
    | error e =>
      rw [show runSuiteStep (rs, pc, fc) t =
          (rs ++ [TestResult.mk t.1 false e], pc, fc + 1) from by
        simp [runSuiteStep, ht]]
      rw [ih]
      simp [passFlag, ht]

theorem runSuite_failed :
    ∀ (tests : List (String × Except String TestResult))
      (rs : List TestResult) (pc fc : Nat),
      (tests.foldl runSuiteStep (rs, pc, fc)).2.2 =
        fc + tests.countP (fun t => !passFlag t) := by
  intro tests
  induction tests with
  | nil => intro rs pc fc; simp
  | cons t rest ih =>
    intro rs pc fc
    rw [List.foldl_cons, List.countP_cons]
    cases ht : t.2 with
    | ok result =>
      by_cases hp : result.passed = true
      · rw [show runSuiteStep (rs, pc, fc) t = (rs ++ [result], pc + 1, fc) from by
          simp [runSuiteStep, ht, hp]]
        rw [ih]
        simp [passFlag, ht, hp]
      · rw [show runSuiteStep (rs, pc, fc) t = (rs ++ [result], pc, fc + 1) from by
          simp [runSuiteStep, ht, hp]]
        rw [ih]
        simp [passFlag, ht, hp]
        omega
    | error e =>
      rw [show runSuiteStep (rs, pc, fc) t =
          (rs ++ [TestResult.mk t.1 false e], pc, fc + 1) from by
        simp [runSuiteStep, ht]]
      rw [ih]
      simp [passFlag, ht]
      omega

theorem countP_bool_split {α : Type} (p : α → Bool) :
    ∀ l : List α, l.countP p + l.countP (fun a => !p a) = l.length := by
  intro l
  induction l with
  | nil => simp
  | cons x xs ih =>
    rw [List.countP_cons, List.countP_cons]
    cases hx : p x <;> simp [hx] <;> omega

theorem zip_map_self {α β : Type} (f : α → β) :
    ∀ l : List α, l.zip (l.map f) = l.map (fun a => (a, f a)) := by
  intro l
  induction l with
  | nil => rfl
  | cons x xs ih => simp [ih]

/-- C10: `run_test_suite` returns a summary with
`passed + failed == total == len(tests)`, records one result per test, and a
test that raises is recorded as a failed TestResult carrying the exception
message while the rest of the suite still runs. -/
theorem c10_run_test_suite (tests : List (String × Except String TestResult)) :
    (runTestSuite tests).passed + (runTestSuite tests).failed =
      (runTestSuite tests).total ∧
    (runTestSuite tests).total = tests.length ∧
    (runTestSuite tests).results.length = tests.length ∧
    (∀ pr ∈ tests.zip (runTestSuite tests).results,
      ∀ msg, pr.1.2 = .error msg → pr.2 = ⟨pr.1.1, false, msg⟩) := by
  have hres : (runTestSuite tests).results = tests.map recordOf := by
    unfold runTestSuite
    simpa using runSuite_fst tests [] 0 0
  have hp : (runTestSuite tests).passed = tests.countP passFlag := by
    unfold runTestSuite
    simpa using runSuite_passed tests [] 0 0
  have hf : (runTestSuite tests).failed =
      tests.countP (fun t => !passFlag t) := by
    unfold runTestSuite
    simpa using runSuite_failed tests [] 0 0
  have htot : (runTestSuite tests).total = tests.length := rfl
  refine ⟨?_, htot, ?_, ?_⟩
  · rw [hp, hf, htot]
    have hlen := countP_bool_split passFlag tests
    omega
  · rw [hres, List.length_map]
  · intro pr hpr
    rw [hres, zip_map_self] at hpr
    simp only [List.mem_map] at hpr
    obtain ⟨t, _, rfl⟩ := hpr
    intro msg hmsg
    simp only at hmsg
    simp [recordOf, hmsg]

/-- Witness for C10 on a two-test suite with one passing and one raising
test. -/
theorem c10_witness :
    (runTestSuite demoTests).passed + (runTestSuite demoTests).failed =
      (runTestSuite demoTests).total ∧
    (runTestSuite demoTests).total = demoTests.length ∧
    (runTestSuite demoTests).results.length = demoTests.length :=
  ⟨(c10_run_test_suite demoTests).1, (c10_run_test_suite demoTests).2.1,
   (c10_run_test_suite demoTests).2.2.1⟩

end PTO
